import Mathlib

/-!
Verification development for the logseq-multigraph-experiments repository.

Two Python scripts are embedded shallowly:
* `02-symlinked-pages/sync_dependencies.py` — the link-based materialization
  strategy (graph discovery, dependency loading, DFS cycle detection,
  symlink reconciliation).
* `03-copy-pages-script/sync_dependencies.py` — the copy-based strategy
  (namespace matching, conditional copy, filename rewrite, provenance
  header injection).

The filesystem is modeled as an association list from paths (component
lists) to entries; the parsed content of each graph's `dependencies.json`
is modeled as structured data attached to the world (JSON parsing itself is
outside the embedding, but the distinction parse-failure / missing-key /
parsed is kept, since the scripts branch on it).  A regular file carries a
`bad` flag modeling an `OSError` raised when the file is opened for
reading; everything else in the embedding is total.
-/

namespace LogseqSync

/-- Filesystem paths as lists of components, absolute (rooted at the scan
root, which is the empty list). -/
abbrev FPath := List String

/-- A filesystem entry: a regular file (content bytes, mtime, and a flag
marking it unreadable, modeling an I/O error raised on open-for-read), a
directory, or a symbolic link storing the absolute target path the script
wrote (`os.symlink(os.path.abspath(source), ...)` always stores an absolute
path). -/
inductive Entry where
  | file (content : String) (mtime : Nat) (bad : Bool)
  | dir
  | link (target : FPath)
  deriving Repr, DecidableEq

/-- The filesystem: an association list from paths to entries; the first
binding for a path wins. -/
abbrev FS := List (FPath × Entry)

/-- Look up the entry at a path. -/
def lookupFS (fs : FS) (p : FPath) : Option Entry :=
  match fs with
  | [] => none
  | (q, e) :: rest => if q = p then some e else lookupFS rest p

/-- `os.path.exists`. -/
def pathExists (fs : FS) (p : FPath) : Bool :=
  (lookupFS fs p).isSome

/-- `os.path.isdir`. -/
def isDir (fs : FS) (p : FPath) : Bool :=
  lookupFS fs p = some .dir

/-- `os.path.isfile` (on the modeled filesystem; `dependencies.json` files
live in the world's declaration map instead, see `World`). -/
def isFile (fs : FS) (p : FPath) : Bool :=
  match lookupFS fs p with
  | some (.file _ _ _) => true
  | _ => false

/-- `os.path.islink`. -/
def isLink (fs : FS) (p : FPath) : Bool :=
  match lookupFS fs p with
  | some (.link _) => true
  | _ => false

/-- `os.path.getmtime`: defined on regular files. -/
def getmtime (fs : FS) (p : FPath) : Option Nat :=
  match lookupFS fs p with
  | some (.file _ m _) => some m
  | _ => none

/-- `os.listdir d`: the names of entries directly inside directory `d`, in
filesystem order. -/
def listdir (fs : FS) (d : FPath) : List String :=
  fs.filterMap fun pe =>
    match pe.1.getLast? with
    | some name => if pe.1.dropLast = d then some name else none
    | none => none

/-- Write an entry at a path, replacing an existing binding in place or
appending a new one. -/
def setEntry (fs : FS) (p : FPath) (e : Entry) : FS :=
  match fs with
  | [] => [(p, e)]
  | (q, x) :: rest => if q = p then (p, e) :: rest else (q, x) :: setEntry rest p e

/-- `os.remove` / `os.unlink`: drop the binding at exactly `p`. -/
def removeEntry (fs : FS) (p : FPath) : FS :=
  fs.filter fun pe => !(pe.1 == p)

/-- `shutil.rmtree`: drop `p` and everything below it. -/
def removeTree (fs : FS) (p : FPath) : FS :=
  fs.filter fun pe => !(p.isPrefixOf pe.1)

/-- `os.makedirs(d, exist_ok=True)` at the single level the scripts need:
create the directory entry if nothing exists at `d`. -/
def ensureDir (fs : FS) (d : FPath) : FS :=
  if pathExists fs d then fs else setEntry fs d .dir

/-- `os.path.normpath` on an absolute path given as components: resolve `.`
and `..` components (`..` above the root is dropped, as for an absolute
path). -/
def normPath (p : FPath) : FPath :=
  p.foldl (fun acc c => if c = ".." then acc.dropLast else if c = "." then acc else acc ++ [c]) []

/-- One `namespaces-to-sync` entry of a `dependencies.json`.  The two name
keys are required by the script (it indexes them directly); the overwrite
flag is read with `.get("overwrite-if-source-is-newer", False)`, so an
absent key is modeled as `false`. -/
structure NsConfig where
  sourceNs : String
  targetNs : String
  overwriteIfNewer : Bool
  deriving Repr, DecidableEq

/-- One `dependent-graphs` entry.  `local-graph-path` is read with `.get`,
and a falsy value (absent key or empty string) makes both scripts skip the
entry; that case is modeled as `none`.  `only-files-beginning-with` is read
by the link script with default `""`; `namespaces-to-sync` is read by the
copy script with default `[]`. -/
structure DepSpec where
  localGraphPath : Option FPath
  onlyFilesBeginningWith : String
  namespacesToSync : List NsConfig
  deriving Repr, DecidableEq

/-- Parse outcome of a `dependencies.json` file: JSON decoding failed, or a
parsed top-level object that may or may not carry the `dependent-graphs`
key. -/
inductive DeclParse where
  | malformed
  | parsed (dependentGraphs : Option (List DepSpec))
  deriving Repr, DecidableEq

/-- The read-only declaration side of a run: for each graph directory that
has a `dependencies.json`, its parse outcome. -/
abbrev DeclMap := List (FPath × DeclParse)

/-- Parse outcome of the `dependencies.json` inside `graphDir`, `none` when
the file is absent. -/
def lookupDecl (decls : DeclMap) (graphDir : FPath) : Option DeclParse :=
  match decls with
  | [] => none
  | (q, d) :: rest => if q = graphDir then some d else lookupDecl rest graphDir

/-- The world a run sees: the mutable filesystem plus the declaration map. -/
structure World where
  fs : FS
  decls : DeclMap
  deriving Repr, DecidableEq

/-! ## Script 03 (copy strategy): string helpers -/

/-- `str.replace(old, new, 1)` on character lists, for nonempty `old`: scan
left to right, replace the first occurrence of `old`, leave everything else
untouched (and the whole string untouched when `old` does not occur). -/
def replaceFirstAux (old new : List Char) : List Char → List Char
  | [] => []
  | c :: rest =>
    if old.isPrefixOf (c :: rest) then new ++ (c :: rest).drop old.length
    else c :: replaceFirstAux old new rest

/-- Python's `s.replace(old, new, 1)`.  For an empty `old`, Python inserts
`new` once in front of the string (`"ab".replace("", "X", 1) == "Xab"`,
`"".replace("", "X", 1) == "X"`). -/
def pythonReplaceFirst (s old new : String) : String :=
  if old.data = [] then ⟨new.data ++ s.data⟩
  else ⟨replaceFirstAux old.data new.data s.data⟩

/-- `base_name.replace("___", "/")` (all occurrences, scanned left to right,
non-overlapping), on character lists. -/
def replaceSepChars : List Char → List Char
  | '_' :: '_' :: '_' :: rest => '/' :: replaceSepChars rest
  | c :: rest => c :: replaceSepChars rest
  | [] => []

/-- `_derive_page_name`: interpret every triple underscore as a subpage
slash. -/
def derivePageName (baseName : String) : String :=
  ⟨replaceSepChars baseName.data⟩

/-- The characters `urllib.parse.quote` never escapes when `safe=""`:
ASCII letters, digits, and `_ . - ~`. -/
def quoteUnreserved (c : Char) : Bool :=
  (65 ≤ c.toNat && c.toNat ≤ 90) || (97 ≤ c.toNat && c.toNat ≤ 122) ||
    (48 ≤ c.toNat && c.toNat ≤ 57) || c = '_' || c = '.' || c = '-' || c = '~'

/-- Uppercase hexadecimal digit for `n < 16`, as `quote` produces. -/
def hexDigit (n : Nat) : Char :=
  if n < 10 then Char.ofNat (48 + n) else Char.ofNat (55 + n)

/-- The UTF-8 bytes of a character (as `quote` encodes non-ASCII input). -/
def utf8Bytes (c : Char) : List Nat :=
  let n := c.toNat
  if n < 128 then [n]
  else if n < 2048 then [192 + n / 64, 128 + n % 64]
  else if n < 65536 then [224 + n / 4096, 128 + (n / 64) % 64, 128 + n % 64]
  else [240 + n / 262144, 128 + (n / 4096) % 64, 128 + (n / 64) % 64, 128 + n % 64]

/-- Percent-escape of one byte: `%` followed by two uppercase hex digits. -/
def pctByte (b : Nat) : List Char :=
  ['%', hexDigit (b / 16), hexDigit (b % 16)]

/-- `urllib.parse.quote(s, safe="")`: keep unreserved characters, percent-
encode the UTF-8 bytes of everything else. -/
def pythonQuote (s : String) : String :=
  ⟨(s.data.map fun c =>
      if quoteUnreserved c then [c] else (utf8Bytes c).map pctByte |>.flatten).flatten⟩

/-- Index (from the left) of the last `.` in a character list, if any. -/
def lastDotIdx (cs : List Char) : Option Nat :=
  match cs with
  | [] => none
  | c :: rest =>
    match lastDotIdx rest with
    | some i => some (i + 1)
    | none => if c = '.' then some 0 else none

/-- `os.path.splitext(s)[0]` for a bare filename: drop the extension at the
last dot, unless every character before that dot is itself a dot (so
`.bashrc` keeps its name, `Python___sort.md` becomes `Python___sort`). -/
def splitextBase (s : String) : String :=
  match lastDotIdx s.data with
  | none => s
  | some i => if (s.data.take i).all (· = '.') then s else ⟨s.data.take i⟩

/-! ## Script 03 (copy strategy): filesystem operations -/

/-- Result of `copy_file_if_needed`: a normal return carrying the did-copy
boolean, or a raised `OSError` carrying the offending path; both carry the
filesystem as mutated so far. -/
inductive CopyRes where
  | ok (didCopy : Bool) (fs : FS)
  | err (p : FPath) (fs : FS)
  deriving Repr, DecidableEq

/-- `_do_copy`: create the destination's directory if needed, read the
source bytes, write them to the destination.  Opening an unreadable (or
non-regular) source raises before the destination is touched.  A fresh
write stamps the current time `now` as the destination's mtime — the copy
does not preserve the source's timestamp. -/
def doCopy (now : Nat) (src dst : FPath) (fs : FS) : Except FPath FS :=
  match lookupFS fs src with
  | some (.file c _ bad) =>
    if bad then .error src
    else .ok (setEntry (ensureDir fs dst.dropLast) dst (.file c now false))
  | _ => .error src

/-- `copy_file_if_needed`: copy unconditionally when no target exists; skip
when a target exists and overwriting is off; with overwriting on, copy
exactly when the source mtime is strictly greater than the target's. -/
def copyFileIfNeeded (now : Nat) (src tgt : FPath) (overwriteIfNewer : Bool)
    (fs : FS) : CopyRes :=
  if ¬ pathExists fs src then .ok false fs
  else if ¬ pathExists fs tgt then
    match doCopy now src tgt fs with
    | .ok fs' => .ok true fs'
    | .error p => .err p fs
  else if ¬ overwriteIfNewer then .ok false fs
  else
    match getmtime fs src, getmtime fs tgt with
    | some sm, some tm =>
      if sm > tm then
        match doCopy now src tgt fs with
        | .ok fs' => .ok true fs'
        | .error p => .err p fs
      else .ok false fs
    | _, _ => .err src fs

/-- The `logseq://` locator written by `_prepend_page_level_attributes`. -/
def logseqUrl (sourceGraphName pageName : String) : String :=
  "logseq://graph/" ++ sourceGraphName ++ "?page=" ++ pythonQuote pageName

/-- The two metadata lines plus blank line prepended to a copied page named
`fname` (a bare filename) coming from graph `sourceGraphName`. -/
def pageHeader (sourceGraphName fname : String) : String :=
  "logseq-remote-page:: true\n" ++
    "logseq-remote-page-link:: " ++
      logseqUrl sourceGraphName (derivePageName (splitextBase fname)) ++ "\n\n"

/-- `_prepend_page_level_attributes`: read the freshly copied target, derive
the page name from its basename, and write the file back with the two
attribute lines and a blank line prepended.  The rewrite stamps `now` as
the new mtime. -/
def prependPageLevelAttributes (now : Nat) (tgt : FPath)
    (sourceGraphName : String) (fs : FS) : Except FPath FS :=
  match lookupFS fs tgt with
  | some (.file c _ bad) =>
    if bad then .error tgt
    else
      .ok (setEntry fs tgt
        (.file (pageHeader sourceGraphName (tgt.getLastD "") ++ c) now false))
  | _ => .error tgt

/-- The hierarchical namespace filter of `sync_graph_dependencies`: the file
named exactly `<ns>.md`, or any filename starting with `<ns>___`. -/
def nsMatches (sourceNs fname : String) : Bool :=
  fname = sourceNs ++ ".md" || (sourceNs ++ "___").data.isPrefixOf fname.data

/-- Mutation events of a copy-strategy run. -/
inductive SyncEvent where
  | copied (tgt : FPath)
  | prepended (tgt : FPath)
  deriving Repr, DecidableEq

/-- The body of the per-file loop of `sync_graph_dependencies` (one `fname`
from the source pages listing, one namespace config): filter, rewrite the
filename, copy if needed, and prepend the page-level attributes exactly
when a copy happened.  Returns the filesystem, the mutation events, and the
raised error if any (mutations made before the raise persist). -/
def syncOneFile (now : Nat) (srcPages tgtPages : FPath)
    (sourceGraphName : String) (cfg : NsConfig) (fname : String) (fs : FS) :
    FS × List SyncEvent × Option FPath :=
  if ¬ nsMatches cfg.sourceNs fname then (fs, [], none)
  else
    let srcFile := srcPages ++ [fname]
    let newFname := pythonReplaceFirst fname cfg.sourceNs cfg.targetNs
    let tgtFile := tgtPages ++ [newFname]
    match copyFileIfNeeded now srcFile tgtFile cfg.overwriteIfNewer fs with
    | .err p fs' => (fs', [], some p)
    | .ok false fs' => (fs', [], none)
    | .ok true fs' =>
      match prependPageLevelAttributes now tgtFile sourceGraphName fs' with
      | .error p => (fs', [.copied tgtFile], some p)
      | .ok fs'' => (fs'', [.copied tgtFile, .prepended tgtFile], none)

/-- The per-file loop of `sync_graph_dependencies` over a source listing; a
raised error aborts the remaining files (Python propagates the exception). -/
def syncFiles (now : Nat) (srcPages tgtPages : FPath) (sourceGraphName : String)
    (cfg : NsConfig) : List String → FS → FS × List SyncEvent × Option FPath
  | [], fs => (fs, [], none)
  | f :: rest, fs =>
    match syncOneFile now srcPages tgtPages sourceGraphName cfg f fs with
    | (fs', evs, some e) => (fs', evs, some e)
    | (fs', evs, none) =>
      let (fs'', evs', r) := syncFiles now srcPages tgtPages sourceGraphName cfg rest fs'
      (fs'', evs ++ evs', r)

/-- The namespace-config loop of `sync_graph_dependencies`; the source
listing is re-read for each config, and a raised error aborts the remaining
configs. -/
def syncNsConfigs (now : Nat) (srcPages tgtPages : FPath)
    (sourceGraphName : String) : List NsConfig → FS → FS × List SyncEvent × Option FPath
  | [], fs => (fs, [], none)
  | cfg :: rest, fs =>
    match syncFiles now srcPages tgtPages sourceGraphName cfg (listdir fs srcPages) fs with
    | (fs', evs, some e) => (fs', evs, some e)
    | (fs', evs, none) =>
      let (fs'', evs', r) := syncNsConfigs now srcPages tgtPages sourceGraphName rest fs'
      (fs'', evs ++ evs', r)

/-- The `dependent-graphs` loop of `sync_graph_dependencies`: resolve the
declared relative path against the target graph directory, derive the
source graph name from the resolved directory's basename, skip entries
without a `local-graph-path` and sources without a `pages` directory, and
sync each namespace config. -/
def syncDepSpecs (now : Nat) (tgtGraphDir : FPath) :
    List DepSpec → FS → FS × List SyncEvent × Option FPath
  | [], fs => (fs, [], none)
  | spec :: rest, fs =>
    match spec.localGraphPath with
    | none => syncDepSpecs now tgtGraphDir rest fs
    | some lgp =>
      let srcGraphDir := normPath (tgtGraphDir ++ lgp)
      let sourceGraphName := srcGraphDir.getLastD ""
      let tgtPages := tgtGraphDir ++ ["pages"]
      let srcPages := srcGraphDir ++ ["pages"]
      if ¬ isDir fs srcPages then syncDepSpecs now tgtGraphDir rest fs
      else
        match syncNsConfigs now srcPages tgtPages sourceGraphName spec.namespacesToSync fs with
        | (fs', evs, some e) => (fs', evs, some e)
        | (fs', evs, none) =>
          let (fs'', evs', r) := syncDepSpecs now tgtGraphDir rest fs'
          (fs'', evs ++ evs', r)

/-- `sync_graph_dependencies`: nothing to do without a `dependencies.json`;
a JSON decode failure is caught, reported, and only skips this graph; a
missing `dependent-graphs` key likewise; otherwise run the dependent-graph
loop. -/
def syncGraphDependencies (now : Nat) (decls : DeclMap) (tgtGraphDir : FPath)
    (fs : FS) : FS × List SyncEvent × Option FPath :=
  match lookupDecl decls tgtGraphDir with
  | none => (fs, [], none)
  | some .malformed => (fs, [], none)
  | some (.parsed none) => (fs, [], none)
  | some (.parsed (some specs)) => syncDepSpecs now tgtGraphDir specs fs

/-- The subdirectory loop of the copy script's `main`; an exception raised
while syncing one graph propagates and aborts the remaining graphs. -/
def main03Graphs (now : Nat) (decls : DeclMap) :
    List FPath → FS → FS × List SyncEvent × Option FPath
  | [], fs => (fs, [], none)
  | g :: rest, fs =>
    match syncGraphDependencies now decls g fs with
    | (fs', evs, some e) => (fs', evs, some e)
    | (fs', evs, none) =>
      let (fs'', evs', r) := main03Graphs now decls rest fs'
      (fs'', evs ++ evs', r)

/-- `main` of the copy script: visit every subdirectory of the current
(root) directory that is a directory and has a `dependencies.json`, and
sync it.  No cycle detection is performed, and the process exit code is 0
whenever no exception escapes. -/
def main03 (now : Nat) (w : World) : FS × List SyncEvent × Option FPath :=
  let graphDirs := (listdir w.fs []).filterMap fun e =>
    if isDir w.fs [e] && (lookupDecl w.decls [e]).isSome then some [e] else none
  main03Graphs now w.decls graphDirs w.fs

/-! ## Script 02 (link strategy): resolver -/

/-- `find_logseq_graphs`: the subdirectories of `rootDir` that contain a
`logseq/` directory, in listing order. -/
def findLogseqGraphs (fs : FS) (rootDir : FPath) : List FPath :=
  (listdir fs rootDir).filterMap fun e =>
    if isDir fs (rootDir ++ [e]) && isDir fs (rootDir ++ [e, "logseq"])
    then some (rootDir ++ [e]) else none

/-- `load_dependencies`: an absent `dependencies.json` yields the empty
list; unparsable JSON raises `json.JSONDecodeError` (modeled as the error
carrying the graph directory), which this script does not catch; a parsed
file yields `data.get("dependent-graphs", [])`. -/
def loadDependencies (decls : DeclMap) (graphFolder : FPath) :
    Except FPath (List DepSpec) :=
  match lookupDecl decls graphFolder with
  | none => .ok []
  | some .malformed => .error graphFolder
  | some (.parsed og) => .ok (og.getD [])

/-- The adjacency list built by `build_dependency_graph`: every discovered
graph maps to its list of `(resolved dependency path, spec)` pairs. -/
abbrev AdjList := List (FPath × List (FPath × DepSpec))

/-- `build_dependency_graph`: for each graph, load its declarations
(propagating a parse exception), resolve each declared `local-graph-path`
against the graph's directory with `normpath`, and record the edge.
Entries with a falsy `local-graph-path` are skipped. -/
def buildDependencyGraph (decls : DeclMap) : List FPath → Except FPath AdjList
  | [] => .ok []
  | g :: rest =>
    match loadDependencies decls g with
    | .error p => .error p
    | .ok specs =>
      let edges := specs.filterMap fun spec =>
        spec.localGraphPath.map fun lgp => (normPath (g ++ lgp), spec)
      match buildDependencyGraph decls rest with
      | .error p => .error p
      | .ok adj => .ok ((g, edges) :: adj)

/-- The neighbor list of a node in the adjacency list (`adj_list[v]` when
`v in adj_list`, else nothing). -/
def neighborsOf (adj : AdjList) (v : FPath) : List FPath :=
  match adj.find? fun e => e.1 == v with
  | some (_, deps) => deps.map (·.1)
  | none => []

/-- All nodes mentioned by the adjacency list: its keys and every edge
target. -/
def nodeUniverse (adj : AdjList) : Finset FPath :=
  (adj.map (·.1)).toFinset ∪ (adj.flatMap fun e => e.2.map (·.1)).toFinset

/-- Fuel bounding the recursion depth of the DFS: each nested call visits a
previously unvisited node of the universe, so this bound is never hit (see
the fuel-sufficiency lemma below). -/
def dfsFuel (adj : AdjList) : Nat :=
  (nodeUniverse adj).card + 1

/-- The neighbor loop inside `dfs`, parametrized by the recursive visit
function (`dfs` itself, one call level deeper): recurse into unvisited
neighbors, raise when a neighbor is on the recursion stack, skip finished
neighbors. -/
def dfsNeighborsGo (visit : List FPath → Finset FPath → FPath →
    Except (Option FPath) (Finset FPath)) :
    List FPath → Finset FPath → List FPath → Except (Option FPath) (Finset FPath)
  | _, visited, [] => .ok visited
  | stack, visited, n :: ns =>
    if n ∉ visited then
      match visit stack visited n with
      | .error e => .error e
      | .ok visited' => dfsNeighborsGo visit stack visited' ns
    else if n ∈ stack then .error (some n)
    else dfsNeighborsGo visit stack visited ns

/-- The recursive `dfs` helper of `detect_cycle_dfs`.  `stack` is the
recursion stack (innermost first), `visited` the visited set; the node `v`
is marked visited and pushed, its neighbors are examined, and the node is
popped on return (the pop is implicit: the caller keeps its own `stack`).
`.error (some n)` is the raised cycle exception naming `n`; `.error none`
models exhaustion of the recursion-depth bound and is unreachable with
`dfsFuel` fuel. -/
def dfsVisit (adj : AdjList) : Nat → List FPath → Finset FPath → FPath →
    Except (Option FPath) (Finset FPath)
  | 0, _, _, _ => .error none
  | fuel + 1, stack, visited, v =>
    dfsNeighborsGo (dfsVisit adj fuel) (v :: stack) (insert v visited)
      (neighborsOf adj v)

/-- The neighbor loop at a given recursion depth. -/
abbrev dfsNeighbors (adj : AdjList) (fuel : Nat) :
    List FPath → Finset FPath → List FPath →
      Except (Option FPath) (Finset FPath) :=
  dfsNeighborsGo (dfsVisit adj fuel)

/-- The outer loop of `detect_cycle_dfs`: run `dfs` from every not-yet-
visited node of the adjacency list. -/
def detectCycleAux (adj : AdjList) : List FPath → Finset FPath →
    Except (Option FPath) (Finset FPath)
  | [], visited => .ok visited
  | k :: ks, visited =>
    if k ∉ visited then
      match dfsVisit adj (dfsFuel adj) [] visited k with
      | .error e => .error e
      | .ok visited' => detectCycleAux adj ks visited'
    else detectCycleAux adj ks visited

/-- `detect_cycle_dfs`: returns normally, or raises an exception naming a
node found on the recursion stack. -/
def detectCycleDfs (adj : AdjList) : Except (Option FPath) Unit :=
  match detectCycleAux adj (adj.map (·.1)) ∅ with
  | .ok _ => .ok ()
  | .error e => .error e

/-- The edge relation of the built dependency graph. -/
def EdgeRel (adj : AdjList) (u v : FPath) : Prop :=
  v ∈ neighborsOf adj u

instance (adj : AdjList) (u v : FPath) : Decidable (EdgeRel adj u v) := by
  unfold EdgeRel; infer_instance

/-- Reachability (zero or more edges) in the dependency graph. -/
inductive ReachRel (adj : AdjList) : FPath → FPath → Prop where
  | refl (v : FPath) : ReachRel adj v v
  | head {u w v : FPath} : EdgeRel adj u w → ReachRel adj w v → ReachRel adj u v

/-- `n` lies on a cycle: an edge leaves `n` and leads back to `n`. -/
def CycleThrough (adj : AdjList) (n : FPath) : Prop :=
  ∃ w, EdgeRel adj n w ∧ ReachRel adj w n

/-- The dependency graph contains a (directed) cycle. -/
def HasCycle (adj : AdjList) : Prop :=
  ∃ n, CycleThrough adj n

/-! ## Script 02 (link strategy): materialization -/

/-- Mutation events of a link-strategy run. -/
inductive LinkEvent where
  | removedLink (p : FPath)
  | removedTree (p : FPath)
  | removedFile (p : FPath)
  | createdLink (p : FPath) (target : FPath)
  | madeDir (p : FPath)
  deriving Repr, DecidableEq

/-- The per-file body of `link_files_with_prefix`: leave a link that
already resolves to this source untouched; remove a link to a different
source, a plain file, or (recursively) a directory; then create the link
to the absolute source path. -/
def linkOneFile (sourceDir targetDir : FPath) (fname : String) (fs : FS) :
    FS × List LinkEvent :=
  let sourcePath := sourceDir ++ [fname]
  let targetPath := targetDir ++ [fname]
  match lookupFS fs targetPath with
  | some (.link cur) =>
    if cur = sourcePath then (fs, [])
    else
      (setEntry (removeEntry fs targetPath) targetPath (.link sourcePath),
        [.removedLink targetPath, .createdLink targetPath sourcePath])
  | some .dir =>
    (setEntry (removeTree fs targetPath) targetPath (.link sourcePath),
      [.removedTree targetPath, .createdLink targetPath sourcePath])
  | some (.file _ _ _) =>
    (setEntry (removeEntry fs targetPath) targetPath (.link sourcePath),
      [.removedFile targetPath, .createdLink targetPath sourcePath])
  | none =>
    (setEntry fs targetPath (.link sourcePath), [.createdLink targetPath sourcePath])

/-- `fname.startswith(only_prefix)`: the plain literal-prefix filter of the
link script (case-sensitive, filename only). -/
def startsWithPfx (pfx fname : String) : Bool :=
  pfx.data.isPrefixOf fname.data

/-- The filename loop of `link_files_with_prefix`: every listed name that
starts with the configured literal string is reconciled. -/
def linkFilesFold (sourceDir targetDir : FPath) (pfx : String) :
    List String → FS → FS × List LinkEvent
  | [], fs => (fs, [])
  | f :: rest, fs =>
    if startsWithPfx pfx f then
      let r := linkOneFile sourceDir targetDir f fs
      let r' := linkFilesFold sourceDir targetDir pfx rest r.1
      (r'.1, r.2 ++ r'.2)
    else linkFilesFold sourceDir targetDir pfx rest fs

/-- `link_files_with_prefix`: nothing to do without a source directory;
otherwise ensure the target directory exists and reconcile every matching
file of the source listing. -/
def linkFilesWithPrefix (sourceDir targetDir : FPath) (pfx : String)
    (fs : FS) : FS × List LinkEvent :=
  if ¬ isDir fs sourceDir then (fs, [])
  else
    let evs0 : List LinkEvent :=
      if pathExists fs targetDir then [] else [.madeDir targetDir]
    let fs0 := ensureDir fs targetDir
    let r := linkFilesFold sourceDir targetDir pfx (listdir fs0 sourceDir) fs0
    (r.1, evs0 ++ r.2)

/-- The edge loop of `sync_dependencies` for one graph: link every declared
dependency's `pages/` into this graph's `pages/`. -/
def syncDeps02Edges (pagesFolder : FPath) :
    List (FPath × DepSpec) → FS → FS × List LinkEvent
  | [], fs => (fs, [])
  | (depPath, spec) :: rest, fs =>
    let r :=
      linkFilesWithPrefix (depPath ++ ["pages"]) pagesFolder
        spec.onlyFilesBeginningWith fs
    let r' := syncDeps02Edges pagesFolder rest r.1
    (r'.1, r.2 ++ r'.2)

/-- `sync_dependencies`: symlink the matching files of every edge of every
graph. -/
def syncDeps02 : AdjList → FS → FS × List LinkEvent
  | [], fs => (fs, [])
  | (g, deps) :: rest, fs =>
    let r := syncDeps02Edges (g ++ ["pages"]) deps fs
    let r' := syncDeps02 rest r.1
    (r'.1, r.2 ++ r'.2)

/-- Outcome of the link script's `main`: a crash from an uncaught exception
(a declaration that fails to parse), or a normal exit with a code. -/
inductive Run02 where
  | crashed (fs : FS)
  | exited (code : Nat) (fs : FS)
  deriving Repr, DecidableEq

/-- `main` of the link script: discover graphs, build the dependency graph
(crashing on an unparsable declaration), detect cycles — exiting with code
1 and touching nothing when one is found — and only then symlink. -/
def main02 (w : World) : Run02 :=
  let graphs := findLogseqGraphs w.fs []
  if graphs.isEmpty then .exited 0 w.fs
  else
    match buildDependencyGraph w.decls graphs with
    | .error _ => .crashed w.fs
    | .ok adj =>
      match detectCycleDfs adj with
      | .error _ => .exited 1 w.fs
      | .ok _ => .exited 0 (syncDeps02 adj w.fs).1

/-! ## Basic lemmas about the filesystem model -/

theorem lookupFS_setEntry_self (fs : FS) (p : FPath) (e : Entry) :
    lookupFS (setEntry fs p e) p = some e := by
  induction fs with
  | nil => simp [setEntry, lookupFS]
  | cons hd tl ih =>
    obtain ⟨q, x⟩ := hd
    by_cases h : q = p <;> simp [setEntry, lookupFS, h, ih]

theorem lookupFS_setEntry_ne (fs : FS) (p : FPath) (e : Entry) {q : FPath}
    (h : q ≠ p) : lookupFS (setEntry fs p e) q = lookupFS fs q := by
  induction fs with
  | nil => simp [setEntry, lookupFS, h, Ne.symm h]
  | cons hd tl ih =>
    obtain ⟨r, x⟩ := hd
    by_cases hr : r = p
    · subst hr; simp [setEntry, lookupFS, h, Ne.symm h]
    · simp [setEntry, lookupFS, hr, ih]

theorem lookupFS_removeEntry_ne (fs : FS) (p : FPath) {q : FPath}
    (h : q ≠ p) : lookupFS (removeEntry fs p) q = lookupFS fs q := by
  induction fs with
  | nil => simp [removeEntry, lookupFS]
  | cons hd tl ih =>
    obtain ⟨r, x⟩ := hd
    by_cases hr : r = p
    · subst hr
      simpa [removeEntry, lookupFS, h, Ne.symm h] using ih
    · by_cases hq : r = q <;>
        simp_all [removeEntry, lookupFS, hr, hq]

theorem lookupFS_removeTree_ne (fs : FS) (p : FPath) {q : FPath}
    (h : ¬ p.isPrefixOf q) : lookupFS (removeTree fs p) q = lookupFS fs q := by
  induction fs with
  | nil => rfl
  | cons hd tl ih =>
    obtain ⟨r, x⟩ := hd
    simp only [removeTree] at ih
    by_cases hr : p.isPrefixOf r
    · have hrq : r ≠ q := fun he => h (he ▸ hr)
      simp [removeTree, List.filter_cons, hr, lookupFS, hrq, ih]
    · simp [removeTree, List.filter_cons, Bool.eq_false_iff.mpr hr, lookupFS, ih]

theorem lookupFS_ensureDir_ne (fs : FS) (d : FPath) {q : FPath} (h : q ≠ d) :
    lookupFS (ensureDir fs d) q = lookupFS fs q := by
  unfold ensureDir
  by_cases hp : pathExists fs d
  · simp [hp]
  · simp [hp, lookupFS_setEntry_ne fs d _ h]

theorem pathExists_ensureDir_self (fs : FS) (d : FPath) :
    pathExists (ensureDir fs d) d = true := by
  unfold ensureDir pathExists
  by_cases hp : (lookupFS fs d).isSome
  · simp [hp]
  · simp only [hp, Bool.false_eq_true, if_false, lookupFS_setEntry_self,
      Option.isSome_some]

theorem copyFileIfNeeded_skip_eq {now : Nat} {src tgt : FPath} {ov : Bool}
    {fs fs' : FS} (h : copyFileIfNeeded now src tgt ov fs = .ok false fs') :
    fs' = fs := by
  unfold copyFileIfNeeded at h
  by_cases h1 : pathExists fs src
  · by_cases h2 : pathExists fs tgt
    · by_cases h3 : ov
      · simp only [h1, h2, h3] at h
        rcases hs : getmtime fs src with _ | sm <;>
          rcases ht : getmtime fs tgt with _ | tm <;>
            simp [hs, ht] at h
        by_cases hlt : sm > tm
        · simp only [hlt, if_true] at h
          rcases hd : doCopy now src tgt fs with _ | _ <;> simp_all
        · simp only [hlt, if_false] at h
          exact (CopyRes.ok.injEq _ _ _ _).mp h |>.2.symm
      · simp_all
    · simp only [h1, h2] at h
      rcases hd : doCopy now src tgt fs with _ | _ <;> simp_all
  · simp_all

/-! ## Claim C3: rule-matching semantics -/

/-- The hierarchical matching rule as the spec words it: `N.<ext>`, or
`N<SEP><rest>.<ext>` with nonempty `<rest>` (`SEP` is `___`). -/
def SpecHierMatches (ns fname : String) : Prop :=
  (∃ ext : String, ext ≠ "" ∧ fname = ns ++ "." ++ ext) ∨
  (∃ rest ext : String, rest ≠ "" ∧ ext ≠ "" ∧
    fname = ns ++ "___" ++ rest ++ "." ++ ext)

theorem startsWithPfx_iff (p f : String) :
    startsWithPfx p f = true ↔ ∃ rest : String, f = p ++ rest := by
  unfold startsWithPfx
  rw [List.isPrefixOf_iff_prefix]
  constructor
  · rintro ⟨t, ht⟩
    exact ⟨⟨t⟩, String.ext (by simp [← ht])⟩
  · rintro ⟨rest, rfl⟩
    exact ⟨rest.data, by simp⟩

/-- C3 (counterexample): the spec's hierarchical rule accepts `Python.txt`
for namespace `Python` (exact name with extension `txt`), but the code
only accepts the exact name with the fixed extension `.md`, so the claimed
equivalence fails at this filename. -/
theorem hier_match_counterexample :
    SpecHierMatches "Python" "Python.txt" ∧
      nsMatches "Python" "Python.txt" = false :=
  ⟨Or.inl ⟨"txt", by decide, by decide⟩, by decide⟩

/-- C3 (amended): the copy script's hierarchical rule matches exactly the
filename `N.md` or any filename that starts with `N___` — regardless of
what follows the separator, including nothing at all and non-`.md`
suffixes; the link script's plain rule matches exactly the filenames that
start with the literal string.  Both are pure, case-sensitive functions of
the filename alone. -/
theorem hier_match_amended (ns f p : String) :
    (nsMatches ns f = true ↔
      f = ns ++ ".md" ∨ ∃ rest : String, f = ns ++ "___" ++ rest) ∧
    (startsWithPfx p f = true ↔ ∃ rest : String, f = p ++ rest) := by
  refine ⟨?_, startsWithPfx_iff p f⟩
  unfold nsMatches
  rw [Bool.or_eq_true, decide_eq_true_eq]
  exact or_congr Iff.rfl (startsWithPfx_iff (ns ++ "___") f)

/-- Witness for C3's amended theorem at concrete inputs. -/
theorem hier_match_amended_witness :
    nsMatches "Python" "Python___x.md" = true ∧
      startsWithPfx "Py" "Python___x.md" = true :=
  ⟨(hier_match_amended "Python" "Python___x.md" "Py").1.mpr
      (Or.inr ⟨"x.md", by decide⟩),
    (hier_match_amended "Python" "Python___x.md" "Py").2.mpr
      ⟨"thon___x.md", by decide⟩⟩

/-! ## Claim C5: first-occurrence namespace rewrite -/

/-- `pat` occurs in `s` at index `i`. -/
def occursAt (pat s : List Char) (i : Nat) : Bool :=
  pat.isPrefixOf (s.drop i)

/-- The least index at which `pat` occurs in `s`, if any. -/
def firstOccIdx (pat s : List Char) : Option Nat :=
  (List.range (s.length + 1)).find? fun i => occursAt pat s i

/-- Replacement of the first occurrence, following the spec's words: locate
the least index at which the source token occurs and splice the target
token there, changing nothing else (or leave the string unchanged when the
token does not occur). -/
def specReplaceFirst (s pat repl : String) : String :=
  match firstOccIdx pat.data s.data with
  | none => s
  | some i => ⟨s.data.take i ++ repl.data ++ s.data.drop (i + pat.data.length)⟩

theorem firstOccIdx_of_pre (pat s : List Char) (h : pat.isPrefixOf s = true) :
    firstOccIdx pat s = some 0 := by
  unfold firstOccIdx
  rw [List.range_succ_eq_map, List.find?_cons_of_pos]
  simpa [occursAt] using h

theorem firstOccIdx_nil (pat : List Char) (hpat : pat ≠ []) :
    firstOccIdx pat [] = none := by
  unfold firstOccIdx
  rcases pat with _ | ⟨c, cs⟩
  · exact absurd rfl hpat
  · simp [List.range_succ_eq_map, occursAt, List.isPrefixOf]

theorem firstOccIdx_cons_neg (pat : List Char) (c : Char) (rest : List Char)
    (h : pat.isPrefixOf (c :: rest) = false) :
    firstOccIdx pat (c :: rest) = (firstOccIdx pat rest).map (· + 1) := by
  unfold firstOccIdx
  have hlen : (c :: rest).length + 1 = rest.length + 1 + 1 := by simp
  rw [hlen, List.range_succ_eq_map, List.find?_cons_of_neg, List.find?_map]
  · have hc : ((fun i => occursAt pat (c :: rest) i) ∘ Nat.succ) =
        fun i => occursAt pat rest i := by
      funext i
      simp [Function.comp, occursAt, List.drop_succ_cons]
    rw [hc]
  · simp [occursAt, h]

theorem replaceFirstAux_eq (pat repl : List Char) (hpat : pat ≠ []) :
    ∀ s : List Char, replaceFirstAux pat repl s =
      match firstOccIdx pat s with
      | none => s
      | some i => s.take i ++ repl ++ s.drop (i + pat.length) := by
  intro s
  induction s with
  | nil => simp [replaceFirstAux, firstOccIdx_nil pat hpat]
  | cons c rest ih =>
    by_cases h : pat.isPrefixOf (c :: rest)
    · rw [replaceFirstAux]
      simp [h, firstOccIdx_of_pre pat _ h]
    · rw [replaceFirstAux]
      simp only [h, Bool.false_eq_true, if_false]
      rw [firstOccIdx_cons_neg pat c rest (Bool.eq_false_iff.mpr h)]
      cases hf : firstOccIdx pat rest with
      | none => simp [hf] at ih; simp [ih]
      | some i =>
        simp [hf] at ih
        simp [ih, List.take_succ_cons, Nat.add_right_comm i 1 pat.length,
          List.drop_succ_cons]

/-- C5: the filename rewrite applied after a namespace-remap copy —
`fname.replace(source_namespace, target_namespace, 1)`, embedded as
`pythonReplaceFirst` and used by `syncOneFile` — replaces exactly the
first (leftmost) occurrence of the source token and changes nothing else;
in particular `Python___sort.md` synced under `Python → MyPy` is written
as `MyPy___sort.md`. -/
theorem namespace_rewrite_first_occurrence :
    (∀ s pat repl : String,
      pythonReplaceFirst s pat repl = specReplaceFirst s pat repl) ∧
    pythonReplaceFirst "Python___sort.md" "Python" "MyPy" = "MyPy___sort.md" := by
  constructor
  · intro s pat repl
    unfold pythonReplaceFirst specReplaceFirst
    by_cases hp : pat.data = []
    · rw [hp]
      simp only [if_true, eq_self_iff_true]
      rw [firstOccIdx_of_pre [] s.data (by simp [List.isPrefixOf])]
      simp
    · simp only [hp, if_false]
      rw [replaceFirstAux_eq pat.data repl.data hp s.data]
      cases hf : firstOccIdx pat.data s.data <;> simp [hf]
  · decide

/-! ## Claim C4: conditional copy semantics -/

/-- C4: `copy_file_if_needed` with a readable source of content `c` and
mtime `sm`: a missing target is copied unconditionally (the target ends up
holding the source bytes, freshly stamped); an existing target with the
overwrite flag off is returned untouched; with the flag on, the copy
happens exactly when the source's mtime is strictly greater than the
target's, and an equal-or-older source leaves the filesystem unchanged. -/
theorem copy_file_if_needed_spec (now : Nat) (src tgt : FPath) (ov : Bool)
    (fs : FS) (c : String) (sm : Nat)
    (hsrc : lookupFS fs src = some (.file c sm false)) :
    (pathExists fs tgt = false →
      copyFileIfNeeded now src tgt ov fs =
        .ok true (setEntry (ensureDir fs tgt.dropLast) tgt (.file c now false))) ∧
    (pathExists fs tgt = true → ov = false →
      copyFileIfNeeded now src tgt ov fs = .ok false fs) ∧
    (∀ tc tm tb, lookupFS fs tgt = some (.file tc tm tb) → ov = true →
      (sm > tm → copyFileIfNeeded now src tgt ov fs =
        .ok true (setEntry (ensureDir fs tgt.dropLast) tgt (.file c now false))) ∧
      (sm ≤ tm → copyFileIfNeeded now src tgt ov fs = .ok false fs)) := by
  have hpe : pathExists fs src = true := by simp [pathExists, hsrc]
  have hdc : doCopy now src tgt fs =
      .ok (setEntry (ensureDir fs tgt.dropLast) tgt (.file c now false)) := by
    simp [doCopy, hsrc]
  refine ⟨?_, ?_, ?_⟩
  · intro htgt
    unfold copyFileIfNeeded
    simp [hpe, htgt, hdc]
  · intro htgt hov
    unfold copyFileIfNeeded
    simp [hpe, htgt, hov]
  · intro tc tm tb htgt hov
    have hte : pathExists fs tgt = true := by simp [pathExists, htgt]
    have hgs : getmtime fs src = some sm := by simp [getmtime, hsrc]
    have hgt : getmtime fs tgt = some tm := by simp [getmtime, htgt]
    constructor
    · intro hgtm
      unfold copyFileIfNeeded
      simp [hpe, hte, hov, hgs, hgt, hgtm, hdc]
    · intro hle
      unfold copyFileIfNeeded
      simp [hpe, hte, hov, hgs, hgt, Nat.not_lt.mpr hle]

/-- Concrete filesystem for the C4 witness: readable source, older target. -/
def fsC4 : FS :=
  [(["s"], .file "hello" 5 false), (["t"], .file "old" 3 false)]

/-- Witness for C4 at a concrete input: the newer source overwrites. -/
theorem copy_file_if_needed_spec_witness :
    copyFileIfNeeded 9 ["s"] ["t"] true fsC4 =
      .ok true (setEntry (ensureDir fsC4 []) ["t"] (.file "hello" 9 false)) :=
  ((copy_file_if_needed_spec 9 ["s"] ["t"] true fsC4 "hello" 5 rfl).2.2
    "old" 3 false rfl rfl).1 (by decide)

/-! ## Claim C6: provenance injection -/

/-- After `copy_file_if_needed` has actually copied the source bytes `c`
into the rewritten target path (stamping `now`), the remainder of the
per-file loop prepends the provenance header exactly once: the target holds
the header followed by the original source bytes, and the event trace is
one copy followed by one prepend. -/
theorem syncOneFile_copied_post (now : Nat) (srcPages tgtPages : FPath)
    (g : String) (cfg : NsConfig) (fname : String) (fs : FS) (c : String)
    (hmatch : nsMatches cfg.sourceNs fname = true)
    (hcopy : copyFileIfNeeded now (srcPages ++ [fname])
        (tgtPages ++ [pythonReplaceFirst fname cfg.sourceNs cfg.targetNs])
        cfg.overwriteIfNewer fs =
        .ok true (setEntry (ensureDir fs tgtPages)
          (tgtPages ++ [pythonReplaceFirst fname cfg.sourceNs cfg.targetNs])
          (.file c now false))) :
    lookupFS (syncOneFile now srcPages tgtPages g cfg fname fs).1
        (tgtPages ++ [pythonReplaceFirst fname cfg.sourceNs cfg.targetNs]) =
        some (.file
          (pageHeader g (pythonReplaceFirst fname cfg.sourceNs cfg.targetNs) ++ c)
          now false) ∧
      (syncOneFile now srcPages tgtPages g cfg fname fs).2.1 =
        [.copied (tgtPages ++ [pythonReplaceFirst fname cfg.sourceNs cfg.targetNs]),
         .prepended (tgtPages ++ [pythonReplaceFirst fname cfg.sourceNs cfg.targetNs])] ∧
      (syncOneFile now srcPages tgtPages g cfg fname fs).2.2 = none := by
  have hlook : lookupFS (setEntry (ensureDir fs tgtPages)
      (tgtPages ++ [pythonReplaceFirst fname cfg.sourceNs cfg.targetNs])
      (.file c now false))
      (tgtPages ++ [pythonReplaceFirst fname cfg.sourceNs cfg.targetNs]) =
      some (.file c now false) := lookupFS_setEntry_self _ _ _
  have hpre : prependPageLevelAttributes now
      (tgtPages ++ [pythonReplaceFirst fname cfg.sourceNs cfg.targetNs]) g
      (setEntry (ensureDir fs tgtPages)
        (tgtPages ++ [pythonReplaceFirst fname cfg.sourceNs cfg.targetNs])
        (.file c now false)) =
      .ok (setEntry (setEntry (ensureDir fs tgtPages)
        (tgtPages ++ [pythonReplaceFirst fname cfg.sourceNs cfg.targetNs])
        (.file c now false))
        (tgtPages ++ [pythonReplaceFirst fname cfg.sourceNs cfg.targetNs])
        (.file (pageHeader g (pythonReplaceFirst fname cfg.sourceNs cfg.targetNs) ++ c)
          now false)) := by
    unfold prependPageLevelAttributes
    rw [hlook]
    simp [List.getLastD_concat]
  simp only [syncOneFile]
  rw [hcopy]
  simp [hmatch, hpre, lookupFS_setEntry_self]

/-- C6: whenever a namespace-matched file is actually copied — freshly (no
target existed) or by overwriting (target exists, overwriting is enabled,
and the source mtime is strictly newer) — `syncOneFile` performs the copy
and then, exactly once, immediately after the copy, prepends the provenance
header, so the target holds `pageHeader` (the `logseq-remote-page:: true`
marker line, the locator line naming the source graph and the
percent-encoded page name, and a blank line) followed by the original
source bytes (never a previously injected header), and the event trace is
exactly one copy followed by one prepend.  When `copy_file_if_needed`
skips, nothing is written and no header is injected.  The encoding example
of the spec: page `Python___sort` from graph `python` yields the locator
`logseq://graph/python?page=Python%2Fsort`. -/
theorem provenance_injection_spec (now : Nat) (srcPages tgtPages : FPath)
    (g : String) (cfg : NsConfig) (fname : String) (fs : FS) :
    (∀ c sm newF tgtF, newF = pythonReplaceFirst fname cfg.sourceNs cfg.targetNs →
      tgtF = tgtPages ++ [newF] →
      nsMatches cfg.sourceNs fname = true →
      lookupFS fs (srcPages ++ [fname]) = some (.file c sm false) →
      lookupFS fs tgtF = none →
      lookupFS (syncOneFile now srcPages tgtPages g cfg fname fs).1 tgtF =
          some (.file (pageHeader g newF ++ c) now false) ∧
        (syncOneFile now srcPages tgtPages g cfg fname fs).2.1 =
          [.copied tgtF, .prepended tgtF] ∧
        (syncOneFile now srcPages tgtPages g cfg fname fs).2.2 = none) ∧
    (∀ c sm tc tm tb newF tgtF,
      newF = pythonReplaceFirst fname cfg.sourceNs cfg.targetNs →
      tgtF = tgtPages ++ [newF] →
      nsMatches cfg.sourceNs fname = true →
      lookupFS fs (srcPages ++ [fname]) = some (.file c sm false) →
      lookupFS fs tgtF = some (.file tc tm tb) →
      cfg.overwriteIfNewer = true →
      tm < sm →
      lookupFS (syncOneFile now srcPages tgtPages g cfg fname fs).1 tgtF =
          some (.file (pageHeader g newF ++ c) now false) ∧
        (syncOneFile now srcPages tgtPages g cfg fname fs).2.1 =
          [.copied tgtF, .prepended tgtF] ∧
        (syncOneFile now srcPages tgtPages g cfg fname fs).2.2 = none) ∧
    (∀ fs', copyFileIfNeeded now (srcPages ++ [fname])
        (tgtPages ++ [pythonReplaceFirst fname cfg.sourceNs cfg.targetNs])
        cfg.overwriteIfNewer fs = .ok false fs' →
      syncOneFile now srcPages tgtPages g cfg fname fs = (fs, [], none)) ∧
    pythonQuote (derivePageName "Python___sort") = "Python%2Fsort" ∧
    logseqUrl "python" (derivePageName "Python___sort") =
      "logseq://graph/python?page=Python%2Fsort" := by
  refine ⟨?_, ?_, ?_, by decide, by decide⟩
  · rintro c sm newF tgtF rfl rfl hmatch hsrc htgt
    have hpe : pathExists fs (srcPages ++ [fname]) = true := by
      simp [pathExists, hsrc]
    have hte : pathExists fs
        (tgtPages ++ [pythonReplaceFirst fname cfg.sourceNs cfg.targetNs]) = false := by
      simp [pathExists, htgt]
    have hdc : doCopy now (srcPages ++ [fname])
        (tgtPages ++ [pythonReplaceFirst fname cfg.sourceNs cfg.targetNs]) fs =
        .ok (setEntry (ensureDir fs tgtPages)
          (tgtPages ++ [pythonReplaceFirst fname cfg.sourceNs cfg.targetNs])
          (.file c now false)) := by
      simp [doCopy, hsrc]
    have hcopy : copyFileIfNeeded now (srcPages ++ [fname])
        (tgtPages ++ [pythonReplaceFirst fname cfg.sourceNs cfg.targetNs])
        cfg.overwriteIfNewer fs =
        .ok true (setEntry (ensureDir fs tgtPages)
          (tgtPages ++ [pythonReplaceFirst fname cfg.sourceNs cfg.targetNs])
          (.file c now false)) := by
      unfold copyFileIfNeeded
      simp [hpe, hte, hdc]
    exact syncOneFile_copied_post now srcPages tgtPages g cfg fname fs c hmatch hcopy
  · rintro c sm tc tm tb newF tgtF rfl rfl hmatch hsrc htgt hov hlt
    have hpe : pathExists fs (srcPages ++ [fname]) = true := by
      simp [pathExists, hsrc]
    have hte : pathExists fs
        (tgtPages ++ [pythonReplaceFirst fname cfg.sourceNs cfg.targetNs]) = true := by
      simp [pathExists, htgt]
    have hms : getmtime fs (srcPages ++ [fname]) = some sm := by
      simp [getmtime, hsrc]
    have hmt : getmtime fs
        (tgtPages ++ [pythonReplaceFirst fname cfg.sourceNs cfg.targetNs]) =
        some tm := by
      simp [getmtime, htgt]
    have hdc : doCopy now (srcPages ++ [fname])
        (tgtPages ++ [pythonReplaceFirst fname cfg.sourceNs cfg.targetNs]) fs =
        .ok (setEntry (ensureDir fs tgtPages)
          (tgtPages ++ [pythonReplaceFirst fname cfg.sourceNs cfg.targetNs])
          (.file c now false)) := by
      simp [doCopy, hsrc]
    have hcopy : copyFileIfNeeded now (srcPages ++ [fname])
        (tgtPages ++ [pythonReplaceFirst fname cfg.sourceNs cfg.targetNs])
        cfg.overwriteIfNewer fs =
        .ok true (setEntry (ensureDir fs tgtPages)
          (tgtPages ++ [pythonReplaceFirst fname cfg.sourceNs cfg.targetNs])
          (.file c now false)) := by
      unfold copyFileIfNeeded
      simp [hpe, hte, hov, hms, hmt, hlt, hdc]
    exact syncOneFile_copied_post now srcPages tgtPages g cfg fname fs c hmatch hcopy
  · intro fs' hcopy
    by_cases hm : nsMatches cfg.sourceNs fname
    · have hfs : fs' = fs := copyFileIfNeeded_skip_eq hcopy
      subst hfs
      simp only [syncOneFile]
      rw [hcopy]
      simp [hm]
    · unfold syncOneFile
      simp [hm]

/-- Concrete world for the C6 witness, fresh-copy case. -/
def fsC6 : FS :=
  [(["python", "pages", "Python___sort.md"], .file "body\n" 1 false)]

/-- Concrete world for the C6 witness, overwrite case: the target already
holds an older file (mtime 1) while the source carries mtime 5. -/
def fsC6b : FS :=
  [(["python", "pages", "Python___sort.md"], .file "body\n" 5 false),
   (["work", "pages"], .dir),
   (["work", "pages", "Python___sort.md"], .file "old" 1 false)]

/-- Witness for C6 at concrete inputs: one fresh copy, one overwrite of an
older target with the flag on; both end with the header over the original
source bytes. -/
theorem provenance_injection_spec_witness :
    lookupFS (syncOneFile 9 ["python", "pages"] ["work", "pages"] "python"
        ⟨"Python", "Python", true⟩ "Python___sort.md" fsC6).1
      ["work", "pages", "Python___sort.md"] =
      some (.file (pageHeader "python" "Python___sort.md" ++ "body\n") 9 false) ∧
    lookupFS (syncOneFile 9 ["python", "pages"] ["work", "pages"] "python"
        ⟨"Python", "Python", true⟩ "Python___sort.md" fsC6b).1
      ["work", "pages", "Python___sort.md"] =
      some (.file (pageHeader "python" "Python___sort.md" ++ "body\n") 9 false) :=
  ⟨((provenance_injection_spec 9 ["python", "pages"] ["work", "pages"] "python"
      ⟨"Python", "Python", true⟩ "Python___sort.md" fsC6).1 "body\n" 1
    "Python___sort.md" ["work", "pages", "Python___sort.md"]
    (by decide) (by decide) (by decide) rfl rfl).1,
   ((provenance_injection_spec 9 ["python", "pages"] ["work", "pages"] "python"
      ⟨"Python", "Python", true⟩ "Python___sort.md" fsC6b).2.1 "body\n" 5 "old" 1 false
    "Python___sort.md" ["work", "pages", "Python___sort.md"]
    (by decide) (by decide) (by decide) rfl rfl rfl (by decide)).1⟩

/-! ## Claim C8: per-file I/O failure handling -/

/-- Concrete world for C9: graph `a` has an unparsable `dependencies.json`,
graph `b` has a healthy one declaring a dependency on `a`. -/
def w9 : World :=
  { fs := [(["a"], .dir), (["a", "logseq"], .dir), (["a", "pages"], .dir),
           (["a", "pages", "X.md"], .file "x" 0 false),
           (["b"], .dir), (["b", "logseq"], .dir), (["b", "pages"], .dir)],
    decls := [(["a"], .malformed),
              (["b"], .parsed (some [⟨some ["..", "a"], "X", []⟩]))] }

/-- C9 (counterexample): in the link script a single unparsable declaration
crashes the whole run before any materialization — graph `b`, unrelated to
the malformed declaration, is never processed (its pending link is absent,
the filesystem is returned unchanged), contradicting the claim that
processing of all unrelated graphs continues. -/
theorem declaration_error_counterexample :
    lookupDecl w9.decls ["a"] = some .malformed ∧
    main02 w9 = .crashed w9.fs ∧
    lookupFS w9.fs ["b", "pages", "X.md"] = none := by
  refine ⟨by decide, by decide, by decide⟩

/-- C9 (amended): a broken `dependencies.json` is handled differently by
the two scripts.  The copy script catches the JSON decode error, reports it
with the offending path, leaves the filesystem untouched for that graph,
and goes on with the remaining graphs unaffected; a `dependencies.json`
that parses but lacks the `dependent-graphs` key is likewise reported and
skipped with every other graph still processed; the link script does not
catch the decode error, so one unparsable declaration aborts the entire
run (before any mutation). -/
theorem declaration_error_behavior :
    (∀ (now : Nat) (decls : DeclMap) (tgt : FPath) (fs : FS),
      lookupDecl decls tgt = some .malformed →
      syncGraphDependencies now decls tgt fs = (fs, [], none)) ∧
    (∀ (now : Nat) (decls : DeclMap) (g : FPath) (rest : List FPath) (fs : FS),
      lookupDecl decls g = some .malformed →
      main03Graphs now decls (g :: rest) fs = main03Graphs now decls rest fs) ∧
    (∀ (now : Nat) (decls : DeclMap) (tgt : FPath) (fs : FS),
      lookupDecl decls tgt = some (.parsed none) →
      syncGraphDependencies now decls tgt fs = (fs, [], none)) ∧
    (∀ (now : Nat) (decls : DeclMap) (g : FPath) (rest : List FPath) (fs : FS),
      lookupDecl decls g = some (.parsed none) →
      main03Graphs now decls (g :: rest) fs = main03Graphs now decls rest fs) ∧
    (∀ (w : World) (g : FPath), g ∈ findLogseqGraphs w.fs [] →
      lookupDecl w.decls g = some .malformed →
      main02 w = .crashed w.fs) := by
  have hsync : ∀ (now : Nat) (decls : DeclMap) (tgt : FPath) (fs : FS),
      lookupDecl decls tgt = some .malformed →
      syncGraphDependencies now decls tgt fs = (fs, [], none) := by
    intro now decls tgt fs h
    simp [syncGraphDependencies, h]
  have hsyncNone : ∀ (now : Nat) (decls : DeclMap) (tgt : FPath) (fs : FS),
      lookupDecl decls tgt = some (.parsed none) →
      syncGraphDependencies now decls tgt fs = (fs, [], none) := by
    intro now decls tgt fs h
    simp [syncGraphDependencies, h]
  have hbuild : ∀ (decls : DeclMap) (gs : List FPath) (g : FPath), g ∈ gs →
      lookupDecl decls g = some .malformed →
      ∃ p, buildDependencyGraph decls gs = .error p := by
    intro decls gs
    induction gs with
    | nil => intro g hg; cases hg
    | cons h t ih =>
      intro g hg hm
      rcases List.mem_cons.mp hg with rfl | hgt
      · exact ⟨g, by simp [buildDependencyGraph, loadDependencies, hm]⟩
      · rcases hl : loadDependencies decls h with p | specs
        · exact ⟨p, by simp [buildDependencyGraph, hl]⟩
        · obtain ⟨p, hp⟩ := ih g hgt hm
          exact ⟨p, by simp [buildDependencyGraph, hl, hp]⟩
  refine ⟨hsync, ?_, hsyncNone, ?_, ?_⟩
  · intro now decls g rest fs h
    simp [main03Graphs, hsync now decls g fs h]
  · intro now decls g rest fs h
    simp [main03Graphs, hsyncNone now decls g fs h]
  · intro w g hg hm
    obtain ⟨p, hp⟩ := hbuild w.decls (findLogseqGraphs w.fs []) g hg hm
    have hne : (findLogseqGraphs w.fs []).isEmpty = false := by
      cases hfg : findLogseqGraphs w.fs [] with
      | nil => rw [hfg] at hg; cases hg
      | cons a l => simp
    simp [main02, hne, hp]

/-- A declaration map whose single graph `c` has a `dependencies.json`
that parses but lacks the `dependent-graphs` key. -/
def declsC9 : DeclMap := [(["c"], .parsed none)]

/-- Witness for C9's amended theorem at concrete inputs: an unparsable
declaration and a parsed-but-keyless one are both skipped by the copy
script with the run continuing, while the link script crashes. -/
theorem declaration_error_behavior_witness :
    syncGraphDependencies 5 w9.decls ["a"] w9.fs = (w9.fs, [], none) ∧
    main03Graphs 5 w9.decls [["a"], ["b"]] w9.fs =
      main03Graphs 5 w9.decls [["b"]] w9.fs ∧
    syncGraphDependencies 5 declsC9 ["c"] w9.fs = (w9.fs, [], none) ∧
    main03Graphs 5 declsC9 [["c"], ["b"]] w9.fs =
      main03Graphs 5 declsC9 [["b"]] w9.fs ∧
    main02 w9 = .crashed w9.fs :=
  ⟨declaration_error_behavior.1 5 w9.decls ["a"] w9.fs (by decide),
   declaration_error_behavior.2.1 5 w9.decls ["a"] [["b"]] w9.fs (by decide),
   declaration_error_behavior.2.2.1 5 declsC9 ["c"] w9.fs (by decide),
   declaration_error_behavior.2.2.2.1 5 declsC9 ["c"] [["b"]] w9.fs (by decide),
   declaration_error_behavior.2.2.2.2 w9 ["a"] (by decide) (by decide)⟩

/-! ## Claim C7: link materialization idempotence and self-correction -/

/-- The part of the filesystem outside the target directory's subtree, in
filesystem order.  Every mutation of the link strategy happens inside that
subtree, so this projection is invariant. -/
def outsideTgt (tgtDir : FPath) (fs : FS) : FS :=
  fs.filter fun pe => !(tgtDir.isPrefixOf pe.1)

theorem outsideTgt_nil (tgtDir : FPath) : outsideTgt tgtDir [] = [] := rfl

theorem outsideTgt_cons (tgtDir : FPath) (pe : FPath × Entry) (fs : FS) :
    outsideTgt tgtDir (pe :: fs) =
      if tgtDir.isPrefixOf pe.1 then outsideTgt tgtDir fs
      else pe :: outsideTgt tgtDir fs := by
  by_cases h : tgtDir.isPrefixOf pe.1 <;>
    simp [outsideTgt, List.filter_cons, h, Bool.eq_false_iff.mpr]

theorem outsideTgt_setEntry (tgtDir : FPath) (fs : FS) {p : FPath} (e : Entry)
    (h : tgtDir.isPrefixOf p = true) :
    outsideTgt tgtDir (setEntry fs p e) = outsideTgt tgtDir fs := by
  induction fs with
  | nil => simp [setEntry, outsideTgt_cons, outsideTgt_nil, h]
  | cons hd tl ih =>
    obtain ⟨q, x⟩ := hd
    by_cases hq : q = p
    · subst hq
      simp [setEntry, outsideTgt_cons, h]
    · simp [setEntry, hq, outsideTgt_cons, ih]

theorem outsideTgt_removeEntry (tgtDir : FPath) (fs : FS) {p : FPath}
    (h : tgtDir.isPrefixOf p = true) :
    outsideTgt tgtDir (removeEntry fs p) = outsideTgt tgtDir fs := by
  induction fs with
  | nil => rfl
  | cons hd tl ih =>
    obtain ⟨q, x⟩ := hd
    by_cases hq : q = p
    · subst hq
      simp [removeEntry, List.filter_cons, outsideTgt_cons, h] at ih ⊢
      simpa [removeEntry] using ih
    · simp only [removeEntry, List.filter_cons] at ih ⊢
      simp [hq, outsideTgt_cons, ih]

theorem outsideTgt_removeTree (tgtDir : FPath) (fs : FS) {p : FPath}
    (h : tgtDir.isPrefixOf p = true) :
    outsideTgt tgtDir (removeTree fs p) = outsideTgt tgtDir fs := by
  induction fs with
  | nil => rfl
  | cons hd tl ih =>
    obtain ⟨q, x⟩ := hd
    simp only [removeTree, List.filter_cons] at ih ⊢
    by_cases hq : p.isPrefixOf q
    · have htq : tgtDir.isPrefixOf q = true := by
        rw [List.isPrefixOf_iff_prefix] at h hq ⊢
        exact h.trans hq
      simp [hq, outsideTgt_cons, htq, ih]
    · simp [Bool.eq_false_iff.mpr hq, outsideTgt_cons, ih]

theorem outsideTgt_ensureDir (tgtDir : FPath) (fs : FS) :
    outsideTgt tgtDir (ensureDir fs tgtDir) = outsideTgt tgtDir fs := by
  unfold ensureDir
  by_cases h : pathExists fs tgtDir
  · simp [h]
  · simp only [h, Bool.false_eq_true, if_false]
    exact outsideTgt_setEntry tgtDir fs _
      (List.isPrefixOf_iff_prefix.mpr (List.prefix_refl _))

theorem prefixOf_self_append (tgtDir : FPath) (f : String) :
    tgtDir.isPrefixOf (tgtDir ++ [f]) = true := by
  rw [List.isPrefixOf_iff_prefix]
  exact List.prefix_append _ _

theorem outsideTgt_linkOneFile (srcDir tgtDir : FPath) (f : String) (fs : FS) :
    outsideTgt tgtDir (linkOneFile srcDir tgtDir f fs).1 = outsideTgt tgtDir fs := by
  have hp := prefixOf_self_append tgtDir f
  simp only [linkOneFile]
  cases h : lookupFS fs (tgtDir ++ [f]) with
  | none => simp [outsideTgt_setEntry tgtDir fs _ hp]
  | some e =>
    cases e with
    | link cur =>
      by_cases hc : cur = srcDir ++ [f]
      · simp [hc]
      · simp [hc, outsideTgt_setEntry, outsideTgt_removeEntry, hp]
    | dir => simp [outsideTgt_setEntry, outsideTgt_removeTree, hp]
    | file c m b =>
      simp [outsideTgt_setEntry, outsideTgt_removeEntry, hp]

theorem outsideTgt_linkFilesFold (srcDir tgtDir : FPath) (pfx : String) :
    ∀ (L : List String) (fs : FS),
      outsideTgt tgtDir (linkFilesFold srcDir tgtDir pfx L fs).1 =
        outsideTgt tgtDir fs := by
  intro L
  induction L with
  | nil => intro fs; rfl
  | cons f rest ih =>
    intro fs
    by_cases hm : startsWithPfx pfx f
    · simp only [linkFilesFold, hm, if_true]
      rw [ih, outsideTgt_linkOneFile]
    · simp only [linkFilesFold, hm, Bool.false_eq_true, if_false]
      exact ih fs

theorem lookupFS_outsideTgt (tgtDir : FPath) (fs : FS) {q : FPath}
    (h : tgtDir.isPrefixOf q = false) :
    lookupFS (outsideTgt tgtDir fs) q = lookupFS fs q := by
  induction fs with
  | nil => rfl
  | cons hd tl ih =>
    obtain ⟨r, x⟩ := hd
    rw [outsideTgt_cons]
    by_cases hr : tgtDir.isPrefixOf r
    · have hrq : r ≠ q := fun he => by rw [he, h] at hr; cases hr
      simp [hr, lookupFS, hrq, ih]
    · simp [hr, lookupFS, ih]

theorem lookupFS_congr_outsideTgt {tgtDir : FPath} {fs' fs : FS}
    (heq : outsideTgt tgtDir fs' = outsideTgt tgtDir fs) {q : FPath}
    (h : tgtDir.isPrefixOf q = false) : lookupFS fs' q = lookupFS fs q := by
  rw [← lookupFS_outsideTgt tgtDir fs' h, heq, lookupFS_outsideTgt tgtDir fs h]

theorem listdir_outsideTgt (tgtDir : FPath) (fs : FS) {d : FPath}
    (hd : ∀ x : String, tgtDir.isPrefixOf (d ++ [x]) = false) :
    listdir (outsideTgt tgtDir fs) d = listdir fs d := by
  induction fs with
  | nil => rfl
  | cons hd' tl ih =>
    obtain ⟨q, x⟩ := hd'
    rw [outsideTgt_cons]
    by_cases hq : tgtDir.isPrefixOf q
    · have hnone : (match q.getLast? with
          | some name => if q.dropLast = d then some name else none
          | none => none) = (none : Option String) := by
        cases hl : q.getLast? with
        | none => rfl
        | some name =>
          by_cases hdl : q.dropLast = d
          · obtain ⟨ys, rfl⟩ := List.getLast?_eq_some_iff.mp hl
            rw [List.dropLast_concat] at hdl
            subst hdl
            rw [hd name] at hq
            cases hq
          · simp [hdl]
      simp only [hq, if_true, listdir, List.filterMap_cons]
      rw [hnone]
      exact ih
    · simp only [hq, Bool.false_eq_true, if_false, listdir, List.filterMap_cons]
      cases hval : (match q.getLast? with
          | some name => if q.dropLast = d then some name else none
          | none => none) with
      | none => exact ih
      | some name => simp only [listdir] at ih; rw [ih]

theorem listdir_congr_outsideTgt {tgtDir : FPath} {fs' fs : FS}
    (heq : outsideTgt tgtDir fs' = outsideTgt tgtDir fs) {d : FPath}
    (hd : ∀ x : String, tgtDir.isPrefixOf (d ++ [x]) = false) :
    listdir fs' d = listdir fs d := by
  rw [← listdir_outsideTgt tgtDir fs' hd, heq, listdir_outsideTgt tgtDir fs hd]

theorem lookupFS_linkOneFile_self (srcDir tgtDir : FPath) (f : String) (fs : FS) :
    lookupFS (linkOneFile srcDir tgtDir f fs).1 (tgtDir ++ [f]) =
      some (.link (srcDir ++ [f])) := by
  simp only [linkOneFile]
  cases h : lookupFS fs (tgtDir ++ [f]) with
  | none => simp [lookupFS_setEntry_self]
  | some e =>
    cases e with
    | link cur =>
      by_cases hc : cur = srcDir ++ [f]
      · simp [hc, h]
      · simp [hc, lookupFS_setEntry_self]
    | dir => simp [lookupFS_setEntry_self]
    | file c m b => simp [lookupFS_setEntry_self]

theorem lookupFS_linkOneFile_untouched (srcDir tgtDir : FPath) (f : String)
    (fs : FS) {q : FPath} (h1 : q ≠ tgtDir ++ [f])
    (h2 : ¬ (tgtDir ++ [f]).isPrefixOf q) :
    lookupFS (linkOneFile srcDir tgtDir f fs).1 q = lookupFS fs q := by
  simp only [linkOneFile]
  cases h : lookupFS fs (tgtDir ++ [f]) with
  | none => simp [lookupFS_setEntry_ne _ _ _ h1]
  | some e =>
    cases e with
    | link cur =>
      by_cases hc : cur = srcDir ++ [f]
      · simp [hc]
      · simp [hc, lookupFS_setEntry_ne _ _ _ h1, lookupFS_removeEntry_ne _ _ h1]
    | dir => simp [lookupFS_setEntry_ne _ _ _ h1, lookupFS_removeTree_ne _ _ h2]
    | file c m b =>
      simp [lookupFS_setEntry_ne _ _ _ h1, lookupFS_removeEntry_ne _ _ h1]

theorem linkOneFile_correct_noop (srcDir tgtDir : FPath) (f : String) (fs : FS)
    (h : lookupFS fs (tgtDir ++ [f]) = some (.link (srcDir ++ [f]))) :
    linkOneFile srcDir tgtDir f fs = (fs, []) := by
  simp only [linkOneFile]
  rw [h]
  simp

theorem siblings_unrelated {tgtDir : FPath} {f f' : String} (hne : f ≠ f') :
    ¬ (tgtDir ++ [f']).isPrefixOf (tgtDir ++ [f]) = true := by
  rw [List.isPrefixOf_iff_prefix]
  intro hp
  have := hp.eq_of_length (by simp)
  have := List.append_inj_right this rfl
  simp at this
  exact hne this.symm

theorem lookupFS_linkFilesFold_keeps (srcDir tgtDir : FPath) (pfx : String) :
    ∀ (L : List String) (fs : FS) (f : String),
      lookupFS fs (tgtDir ++ [f]) = some (.link (srcDir ++ [f])) →
      lookupFS (linkFilesFold srcDir tgtDir pfx L fs).1 (tgtDir ++ [f]) =
        some (.link (srcDir ++ [f])) := by
  intro L
  induction L with
  | nil => intro fs f h; exact h
  | cons f' rest ih =>
    intro fs f h
    by_cases hm : startsWithPfx pfx f'
    · simp only [linkFilesFold, hm, if_true]
      by_cases hff : f = f'
      · subst hff
        rw [linkOneFile_correct_noop srcDir tgtDir f fs h]
        exact ih fs f h
      · have hstep : lookupFS (linkOneFile srcDir tgtDir f' fs).1 (tgtDir ++ [f]) =
            some (.link (srcDir ++ [f])) := by
          rw [lookupFS_linkOneFile_untouched srcDir tgtDir f' fs
            (by simp [hff]) (siblings_unrelated hff)]
          exact h
        exact ih _ f hstep
    · simp only [linkFilesFold, hm, Bool.false_eq_true, if_false]
      exact ih fs f h

theorem lookupFS_linkFilesFold_establishes (srcDir tgtDir : FPath) (pfx : String) :
    ∀ (L : List String) (fs : FS) (f : String), f ∈ L →
      startsWithPfx pfx f = true →
      lookupFS (linkFilesFold srcDir tgtDir pfx L fs).1 (tgtDir ++ [f]) =
        some (.link (srcDir ++ [f])) := by
  intro L
  induction L with
  | nil => intro fs f hf; cases hf
  | cons f' rest ih =>
    intro fs f hf hm
    rcases List.mem_cons.mp hf with rfl | hfr
    · simp only [linkFilesFold, hm, if_true]
      exact lookupFS_linkFilesFold_keeps srcDir tgtDir pfx rest _ f
        (lookupFS_linkOneFile_self srcDir tgtDir f fs)
    · by_cases hm' : startsWithPfx pfx f'
      · simp only [linkFilesFold, hm', if_true]
        exact ih _ f hfr hm
      · simp only [linkFilesFold, hm', Bool.false_eq_true, if_false]
        exact ih fs f hfr hm

theorem linkFilesFold_noop (srcDir tgtDir : FPath) (pfx : String) :
    ∀ (L : List String) (fs : FS),
      (∀ f ∈ L, startsWithPfx pfx f = true →
        lookupFS fs (tgtDir ++ [f]) = some (.link (srcDir ++ [f]))) →
      linkFilesFold srcDir tgtDir pfx L fs = (fs, []) := by
  intro L
  induction L with
  | nil => intro fs _; rfl
  | cons f rest ih =>
    intro fs h
    by_cases hm : startsWithPfx pfx f
    · simp only [linkFilesFold, hm, if_true]
      rw [linkOneFile_correct_noop srcDir tgtDir f fs (h f (by simp) hm)]
      rw [ih fs fun g hg hgm => h g (by simp [hg]) hgm]
      rfl
    · simp only [linkFilesFold, hm, Bool.false_eq_true, if_false]
      exact ih fs fun g hg hgm => h g (by simp [hg]) hgm

theorem lookupFS_linkFilesFold_at_dir (srcDir tgtDir : FPath) (pfx : String) :
    ∀ (L : List String) (fs : FS),
      lookupFS (linkFilesFold srcDir tgtDir pfx L fs).1 tgtDir =
        lookupFS fs tgtDir := by
  intro L
  induction L with
  | nil => intro fs; rfl
  | cons f rest ih =>
    intro fs
    have hlen : tgtDir ≠ tgtDir ++ [f] := by simp
    have hpre : ¬ (tgtDir ++ [f]).isPrefixOf tgtDir = true := by
      rw [List.isPrefixOf_iff_prefix]
      intro hp
      have := hp.length_le
      simp at this
    by_cases hm : startsWithPfx pfx f
    · simp only [linkFilesFold, hm, if_true]
      rw [ih, lookupFS_linkOneFile_untouched srcDir tgtDir f fs hlen hpre]
    · simp only [linkFilesFold, hm, Bool.false_eq_true, if_false]
      exact ih fs

/-- C7: per matched file, a link already resolving to the declared source
is left untouched (no events); after processing, the target always holds
the correct link; anything else at the target (wrong link, plain file, or
directory — the latter removed recursively) is replaced, emitting exactly
one removal event and one link creation; and — for a source directory and
target directory in disjoint subtrees — a second run of
`link_files_with_prefix` on the unchanged result performs zero filesystem
mutations. -/
theorem link_materialization_idempotent :
    (∀ (srcDir tgtDir : FPath) (f : String) (fs : FS),
      lookupFS fs (tgtDir ++ [f]) = some (.link (srcDir ++ [f])) →
      linkOneFile srcDir tgtDir f fs = (fs, [])) ∧
    (∀ (srcDir tgtDir : FPath) (f : String) (fs : FS),
      lookupFS (linkOneFile srcDir tgtDir f fs).1 (tgtDir ++ [f]) =
        some (.link (srcDir ++ [f]))) ∧
    (∀ (srcDir tgtDir : FPath) (f : String) (fs : FS) (e : Entry),
      lookupFS fs (tgtDir ++ [f]) = some e → e ≠ .link (srcDir ++ [f]) →
      ∃ rem, (linkOneFile srcDir tgtDir f fs).2 =
        [rem, .createdLink (tgtDir ++ [f]) (srcDir ++ [f])]) ∧
    (∀ (srcDir tgtDir : FPath) (pfx : String) (fs : FS),
      ¬ tgtDir <+: srcDir → ¬ srcDir <+: tgtDir →
      linkFilesWithPrefix srcDir tgtDir pfx
          (linkFilesWithPrefix srcDir tgtDir pfx fs).1 =
        ((linkFilesWithPrefix srcDir tgtDir pfx fs).1, [])) := by
  refine ⟨linkOneFile_correct_noop, lookupFS_linkOneFile_self, ?_, ?_⟩
  · intro srcDir tgtDir f fs e h hne
    cases e with
    | link cur =>
      have hc : cur ≠ srcDir ++ [f] := fun hx => hne (by rw [hx])
      exact ⟨.removedLink (tgtDir ++ [f]),
        by simp only [linkOneFile]; rw [h]; simp [hc]⟩
    | dir =>
      exact ⟨.removedTree (tgtDir ++ [f]),
        by simp only [linkOneFile]; rw [h]⟩
    | file c m b =>
      exact ⟨.removedFile (tgtDir ++ [f]),
        by simp only [linkOneFile]; rw [h]⟩
  · intro srcDir tgtDir pfx fs hst hts
    have hsd : tgtDir.isPrefixOf srcDir = false :=
      Bool.eq_false_iff.mpr fun hx => hst (List.isPrefixOf_iff_prefix.mp hx)
    have hsx : ∀ x : String, tgtDir.isPrefixOf (srcDir ++ [x]) = false := by
      intro x
      refine Bool.eq_false_iff.mpr fun hx => ?_
      rcases List.prefix_concat_iff.mp (List.isPrefixOf_iff_prefix.mp hx) with
        he | hp
      · exact hts (he ▸ List.prefix_append _ _)
      · exact hst hp
    by_cases hdir : isDir fs srcDir
    · have hout1 : outsideTgt tgtDir
          (linkFilesFold srcDir tgtDir pfx
            (listdir (ensureDir fs tgtDir) srcDir) (ensureDir fs tgtDir)).1 =
          outsideTgt tgtDir fs := by
        rw [outsideTgt_linkFilesFold, outsideTgt_ensureDir]
      have hrun1 : (linkFilesWithPrefix srcDir tgtDir pfx fs).1 =
          (linkFilesFold srcDir tgtDir pfx
            (listdir (ensureDir fs tgtDir) srcDir) (ensureDir fs tgtDir)).1 := by
        simp [linkFilesWithPrefix, hdir]
      have hdir1 : isDir (linkFilesWithPrefix srcDir tgtDir pfx fs).1 srcDir = true := by
        unfold isDir at hdir ⊢
        rw [hrun1]
        rw [lookupFS_congr_outsideTgt hout1 hsd]
        exact hdir
      have hnames1 : listdir (linkFilesWithPrefix srcDir tgtDir pfx fs).1 srcDir =
          listdir (ensureDir fs tgtDir) srcDir := by
        rw [hrun1]
        refine listdir_congr_outsideTgt ?_ hsx
        rw [outsideTgt_linkFilesFold]
      have hex1 : pathExists (linkFilesWithPrefix srcDir tgtDir pfx fs).1 tgtDir = true := by
        unfold pathExists
        rw [hrun1, lookupFS_linkFilesFold_at_dir]
        have h2 := pathExists_ensureDir_self fs tgtDir
        unfold pathExists at h2
        exact h2
      have hens1 : ensureDir (linkFilesWithPrefix srcDir tgtDir pfx fs).1 tgtDir =
          (linkFilesWithPrefix srcDir tgtDir pfx fs).1 := by
        unfold ensureDir
        rw [hex1]
        simp
      have hcorrect : ∀ f ∈ listdir (ensureDir fs tgtDir) srcDir,
          startsWithPfx pfx f = true →
          lookupFS (linkFilesWithPrefix srcDir tgtDir pfx fs).1 (tgtDir ++ [f]) =
            some (.link (srcDir ++ [f])) := by
        intro f hf hm
        rw [hrun1]
        exact lookupFS_linkFilesFold_establishes srcDir tgtDir pfx _ _ f hf hm
      have hnoop := linkFilesFold_noop srcDir tgtDir pfx
        (listdir (ensureDir fs tgtDir) srcDir)
        (linkFilesWithPrefix srcDir tgtDir pfx fs).1 hcorrect
      generalize hR : linkFilesWithPrefix srcDir tgtDir pfx fs = R at hdir1 hnames1 hex1 hens1 hnoop ⊢
      simp [linkFilesWithPrefix, hdir1, hens1, hnames1, hex1, hnoop]
    · have hrun1 : linkFilesWithPrefix srcDir tgtDir pfx fs = (fs, []) := by
        simp [linkFilesWithPrefix, hdir]
      rw [hrun1]
      simp [linkFilesWithPrefix, hdir]

/-- Concrete filesystem for the C7 witness: a wrong link, a plain file, and
a correct link in the target, plus a fresh source page. -/
def fsC7 : FS :=
  [(["python", "pages"], .dir),
   (["python", "pages", "Python.md"], .file "a" 0 false),
   (["python", "pages", "Python___x.md"], .file "b" 0 false),
   (["work", "pages"], .dir),
   (["work", "pages", "Python.md"], .link ["elsewhere", "Python.md"])]

/-- Witness for C7 at concrete inputs: a wrong link is corrected, and the
second run of the double-run conjunct is a no-op. -/
theorem link_materialization_idempotent_witness :
    (∃ rem, (linkOneFile ["python", "pages"] ["work", "pages"] "Python.md" fsC7).2 =
      [rem, .createdLink ["work", "pages", "Python.md"]
        ["python", "pages", "Python.md"]]) ∧
    linkFilesWithPrefix ["python", "pages"] ["work", "pages"] "Python"
        (linkFilesWithPrefix ["python", "pages"] ["work", "pages"] "Python" fsC7).1 =
      ((linkFilesWithPrefix ["python", "pages"] ["work", "pages"] "Python" fsC7).1,
        []) :=
  ⟨link_materialization_idempotent.2.2.1 ["python", "pages"] ["work", "pages"]
      "Python.md" fsC7 (.link ["elsewhere", "Python.md"]) (by decide) (by decide),
    link_materialization_idempotent.2.2.2 ["python", "pages"] ["work", "pages"]
      "Python" fsC7 (by decide) (by decide)⟩

/-! ## Claim C10: copy materialization idempotence -/

/-- Two directories lie in disjoint subtrees: then no immediate child of
`srcDir` lies inside `tgtDir`'s subtree. -/
theorem not_prefixOf_child {tgtDir srcDir : FPath} (hst : ¬ tgtDir <+: srcDir)
    (hts : ¬ srcDir <+: tgtDir) (x : String) :
    tgtDir.isPrefixOf (srcDir ++ [x]) = false := by
  refine Bool.eq_false_iff.mpr fun hx => ?_
  rcases List.prefix_concat_iff.mp (List.isPrefixOf_iff_prefix.mp hx) with he | hp
  · exact hts (he ▸ List.prefix_append _ _)
  · exact hst hp

/-- Invariant of a copy run with write stamp `now₁` that started on `fs`:
everything outside the target pages directory's subtree is untouched, and
every entry inside it is either the original one or a freshly written,
readable file stamped `now₁`. -/
def CopyInv (now₁ : Nat) (tgtPages : FPath) (fs fs' : FS) : Prop :=
  outsideTgt tgtPages fs' = outsideTgt tgtPages fs ∧
  ∀ x e, lookupFS fs' (tgtPages ++ [x]) = some e →
    lookupFS fs (tgtPages ++ [x]) = some e ∨ ∃ c, e = Entry.file c now₁ false

/-- A matched file is ready to be skipped by a further run: its source is
gone, or its target exists and — when overwriting is enabled — is a file at
least as new as the source. -/
def SkipReady (srcPages tgtPages : FPath) (cfg : NsConfig) (f : String)
    (fs' : FS) : Prop :=
  pathExists fs' (srcPages ++ [f]) = false ∨
  ∃ e, lookupFS fs'
      (tgtPages ++ [pythonReplaceFirst f cfg.sourceNs cfg.targetNs]) = some e ∧
    (cfg.overwriteIfNewer = true →
      ∃ c m b, e = Entry.file c m b ∧
        ∀ c' m' b', lookupFS fs' (srcPages ++ [f]) = some (.file c' m' b') →
          m' ≤ m)

theorem CopyInv.refl (now₁ : Nat) (tgtPages : FPath) (fs : FS) :
    CopyInv now₁ tgtPages fs fs :=
  ⟨rfl, fun _ _ h => Or.inl h⟩

theorem CopyInv.src_eq {now₁ : Nat} {srcPages tgtPages : FPath} {fs fs' : FS}
    (hst : ¬ tgtPages <+: srcPages) (hts : ¬ srcPages <+: tgtPages)
    (hinv : CopyInv now₁ tgtPages fs fs') (x : String) :
    lookupFS fs' (srcPages ++ [x]) = lookupFS fs (srcPages ++ [x]) :=
  lookupFS_congr_outsideTgt hinv.1 (not_prefixOf_child hst hts x)

theorem CopyInv.listdir_src {now₁ : Nat} {srcPages tgtPages : FPath}
    {fs fs' : FS} (hst : ¬ tgtPages <+: srcPages) (hts : ¬ srcPages <+: tgtPages)
    (hinv : CopyInv now₁ tgtPages fs fs') :
    listdir fs' srcPages = listdir fs srcPages :=
  listdir_congr_outsideTgt hinv.1 (not_prefixOf_child hst hts)

theorem append_singleton_ne (l : FPath) (x : String) : l ++ [x] ≠ l := by
  intro h
  simpa using congrArg List.length h

/-- Lookup inside the target subtree after the copy-then-prepend write pair
of one file step. -/
theorem writePair_lookup (fs' : FS) (tgtPages : FPath) (newF : String)
    (e₂ e₃ : Entry) (x : String) :
    lookupFS (setEntry (setEntry (ensureDir fs' tgtPages) (tgtPages ++ [newF]) e₂)
        (tgtPages ++ [newF]) e₃) (tgtPages ++ [x]) =
      if x = newF then some e₃ else lookupFS fs' (tgtPages ++ [x]) := by
  by_cases hx : x = newF
  · subst hx
    simp [lookupFS_setEntry_self]
  · have hne : tgtPages ++ [x] ≠ tgtPages ++ [newF] := by simp [hx]
    rw [lookupFS_setEntry_ne _ _ _ hne, lookupFS_setEntry_ne _ _ _ hne,
      lookupFS_ensureDir_ne _ _ (append_singleton_ne tgtPages x)]
    simp [hx]

/-- The write pair leaves everything outside the target subtree untouched. -/
theorem writePair_outside (fs' : FS) (tgtPages : FPath) (newF : String)
    (e₂ e₃ : Entry) :
    outsideTgt tgtPages
        (setEntry (setEntry (ensureDir fs' tgtPages) (tgtPages ++ [newF]) e₂)
          (tgtPages ++ [newF]) e₃) =
      outsideTgt tgtPages fs' := by
  rw [outsideTgt_setEntry _ _ _ (prefixOf_self_append tgtPages newF),
    outsideTgt_setEntry _ _ _ (prefixOf_self_append tgtPages newF),
    outsideTgt_ensureDir]

/-- One file step of the first copy run: it raises nothing, maintains the
run invariant, only rewrites target-subtree entries to freshly stamped
files, and leaves a matched file skip-ready. -/
theorem syncOneFile_run1 (now₁ : Nat) (srcPages tgtPages : FPath) (g : String)
    (hst : ¬ tgtPages <+: srcPages) (hts : ¬ srcPages <+: tgtPages)
    (fs : FS)
    (Hsrc : ∀ x e, lookupFS fs (srcPages ++ [x]) = some e →
      ∃ c m, e = Entry.file c m false ∧ m ≤ now₁)
    (Htgt : ∀ x e, lookupFS fs (tgtPages ++ [x]) = some e →
      ∃ c m b, e = Entry.file c m b)
    (fs' : FS) (hinv : CopyInv now₁ tgtPages fs fs')
    (cfg : NsConfig) (f : String) :
    (syncOneFile now₁ srcPages tgtPages g cfg f fs').2.2 = none ∧
    CopyInv now₁ tgtPages fs (syncOneFile now₁ srcPages tgtPages g cfg f fs').1 ∧
    (∀ x, lookupFS (syncOneFile now₁ srcPages tgtPages g cfg f fs').1
        (tgtPages ++ [x]) = lookupFS fs' (tgtPages ++ [x]) ∨
      ∃ c, lookupFS (syncOneFile now₁ srcPages tgtPages g cfg f fs').1
        (tgtPages ++ [x]) = some (.file c now₁ false)) ∧
    (nsMatches cfg.sourceNs f = true →
      SkipReady srcPages tgtPages cfg f
        (syncOneFile now₁ srcPages tgtPages g cfg f fs').1) := by
  by_cases hm : nsMatches cfg.sourceNs f
  case neg =>
    have hres : syncOneFile now₁ srcPages tgtPages g cfg f fs' = (fs', [], none) := by
      simp [syncOneFile, hm]
    rw [hres]
    exact ⟨rfl, hinv, fun x => Or.inl rfl, fun hx => absurd hx (by simp [hm])⟩
  case pos =>
    set newF := pythonReplaceFirst f cfg.sourceNs cfg.targetNs with hnewF
    cases hsrc' : lookupFS fs' (srcPages ++ [f]) with
    | none =>
      have hpe : pathExists fs' (srcPages ++ [f]) = false := by
        simp [pathExists, hsrc']
      have hcopy : copyFileIfNeeded now₁ (srcPages ++ [f]) (tgtPages ++ [newF])
          cfg.overwriteIfNewer fs' = .ok false fs' := by
        unfold copyFileIfNeeded
        simp [hpe]
      have hres : syncOneFile now₁ srcPages tgtPages g cfg f fs' = (fs', [], none) := by
        simp only [syncOneFile, ← hnewF]
        rw [hcopy]
        simp [hm]
      rw [hres]
      exact ⟨rfl, hinv, fun x => Or.inl rfl, fun _ => Or.inl hpe⟩
    | some e0 =>
      have hsrcfs : lookupFS fs (srcPages ++ [f]) = some e0 := by
        rw [← hinv.src_eq hst hts f]
        exact hsrc'
      obtain ⟨c', m', he0, hm'⟩ := Hsrc f e0 hsrcfs
      subst he0
      have hpe : pathExists fs' (srcPages ++ [f]) = true := by
        simp [pathExists, hsrc']
      have hdc : doCopy now₁ (srcPages ++ [f]) (tgtPages ++ [newF]) fs' =
          .ok (setEntry (ensureDir fs' tgtPages) (tgtPages ++ [newF])
            (.file c' now₁ false)) := by
        simp [doCopy, hsrc']
      have hcopyres : ∀ hcopy : copyFileIfNeeded now₁ (srcPages ++ [f])
          (tgtPages ++ [newF]) cfg.overwriteIfNewer fs' =
          .ok true (setEntry (ensureDir fs' tgtPages) (tgtPages ++ [newF])
            (.file c' now₁ false)),
          (syncOneFile now₁ srcPages tgtPages g cfg f fs').2.2 = none ∧
          CopyInv now₁ tgtPages fs
            (syncOneFile now₁ srcPages tgtPages g cfg f fs').1 ∧
          (∀ x, lookupFS (syncOneFile now₁ srcPages tgtPages g cfg f fs').1
              (tgtPages ++ [x]) = lookupFS fs' (tgtPages ++ [x]) ∨
            ∃ c, lookupFS (syncOneFile now₁ srcPages tgtPages g cfg f fs').1
              (tgtPages ++ [x]) = some (.file c now₁ false)) ∧
          (nsMatches cfg.sourceNs f = true →
            SkipReady srcPages tgtPages cfg f
              (syncOneFile now₁ srcPages tgtPages g cfg f fs').1) := by
        intro hcopy
        have hlook2 : lookupFS (setEntry (ensureDir fs' tgtPages)
            (tgtPages ++ [newF]) (.file c' now₁ false)) (tgtPages ++ [newF]) =
            some (.file c' now₁ false) := lookupFS_setEntry_self _ _ _
        have hpre : prependPageLevelAttributes now₁ (tgtPages ++ [newF]) g
            (setEntry (ensureDir fs' tgtPages) (tgtPages ++ [newF])
              (.file c' now₁ false)) =
            .ok (setEntry (setEntry (ensureDir fs' tgtPages)
                (tgtPages ++ [newF]) (.file c' now₁ false)) (tgtPages ++ [newF])
              (.file (pageHeader g newF ++ c') now₁ false)) := by
          unfold prependPageLevelAttributes
          rw [hlook2]
          simp [List.getLastD_concat]
        have hres : syncOneFile now₁ srcPages tgtPages g cfg f fs' =
            (setEntry (setEntry (ensureDir fs' tgtPages) (tgtPages ++ [newF])
                (.file c' now₁ false)) (tgtPages ++ [newF])
              (.file (pageHeader g newF ++ c') now₁ false),
              [.copied (tgtPages ++ [newF]), .prepended (tgtPages ++ [newF])],
              none) := by
          simp only [syncOneFile, ← hnewF]
          rw [hcopy]
          simp [hm, hpre]
        rw [hres]
        have hchar : ∀ x, lookupFS (setEntry (setEntry (ensureDir fs' tgtPages)
            (tgtPages ++ [newF]) (.file c' now₁ false)) (tgtPages ++ [newF])
              (.file (pageHeader g newF ++ c') now₁ false)) (tgtPages ++ [x]) =
            if x = newF then some (.file (pageHeader g newF ++ c') now₁ false)
            else lookupFS fs' (tgtPages ++ [x]) := fun x =>
          writePair_lookup fs' tgtPages newF _ _ x
        have hout : outsideTgt tgtPages (setEntry (setEntry (ensureDir fs' tgtPages)
            (tgtPages ++ [newF]) (.file c' now₁ false)) (tgtPages ++ [newF])
              (.file (pageHeader g newF ++ c') now₁ false)) = outsideTgt tgtPages fs' :=
          writePair_outside fs' tgtPages newF _ _
        refine ⟨rfl, ⟨hout.trans hinv.1, ?_⟩, ?_, ?_⟩
        · intro x e hx
          rw [hchar x] at hx
          by_cases hxf : x = newF
          · rw [if_pos hxf] at hx
            exact Or.inr ⟨pageHeader g newF ++ c', (Option.some.injEq _ _).mp hx |>.symm⟩
          · rw [if_neg hxf] at hx
            exact hinv.2 x e hx
        · intro x
          rw [hchar x]
          by_cases hxf : x = newF
          · exact Or.inr ⟨pageHeader g newF ++ c', by rw [if_pos hxf]⟩
          · exact Or.inl (by rw [if_neg hxf])
        · intro _
          refine Or.inr ⟨.file (pageHeader g newF ++ c') now₁ false, ?_, ?_⟩
          · rw [hchar newF, if_pos rfl]
          · intro _
            refine ⟨pageHeader g newF ++ c', now₁, false, rfl, ?_⟩
            intro c'' m'' b'' hs
            have hsp : lookupFS (setEntry (setEntry (ensureDir fs' tgtPages)
                (tgtPages ++ [newF]) (.file c' now₁ false)) (tgtPages ++ [newF])
                  (.file (pageHeader g newF ++ c') now₁ false)) (srcPages ++ [f]) =
                lookupFS fs' (srcPages ++ [f]) :=
              lookupFS_congr_outsideTgt hout (not_prefixOf_child hst hts f)
            rw [hsp, hsrc'] at hs
            cases hs
            exact hm'
      cases htgt' : lookupFS fs' (tgtPages ++ [newF]) with
      | none =>
        have hte : pathExists fs' (tgtPages ++ [newF]) = false := by
          simp [pathExists, htgt']
        exact hcopyres (by unfold copyFileIfNeeded; simp [hpe, hte, hdc])
      | some et =>
        have hte : pathExists fs' (tgtPages ++ [newF]) = true := by
          simp [pathExists, htgt']
        have hetfile : ∃ ct mt bt, et = Entry.file ct mt bt := by
          rcases hinv.2 newF et htgt' with horig | ⟨c, hc⟩
          · exact Htgt newF et horig
          · exact ⟨c, now₁, false, hc⟩
        obtain ⟨ct, mt, bt, rfl⟩ := hetfile
        by_cases hov : cfg.overwriteIfNewer
        case neg =>
          have hcopy : copyFileIfNeeded now₁ (srcPages ++ [f]) (tgtPages ++ [newF])
              cfg.overwriteIfNewer fs' = .ok false fs' := by
            unfold copyFileIfNeeded
            simp [hpe, hte, hov]
          have hres : syncOneFile now₁ srcPages tgtPages g cfg f fs' =
              (fs', [], none) := by
            simp only [syncOneFile, ← hnewF]
            rw [hcopy]
            simp [hm]
          rw [hres]
          refine ⟨rfl, hinv, fun x => Or.inl rfl, fun _ => ?_⟩
          exact Or.inr ⟨.file ct mt bt, htgt',
            fun hovt => absurd hovt (by simp [hov])⟩
        case pos =>
          have hgs : getmtime fs' (srcPages ++ [f]) = some m' := by
            simp [getmtime, hsrc']
          have hgt : getmtime fs' (tgtPages ++ [newF]) = some mt := by
            simp [getmtime, htgt']
          by_cases hnewer : m' > mt
          · exact hcopyres (by
              unfold copyFileIfNeeded
              simp [hpe, hte, hov, hgs, hgt, hnewer, hdc])
          · have hcopy : copyFileIfNeeded now₁ (srcPages ++ [f])
                (tgtPages ++ [newF]) cfg.overwriteIfNewer fs' = .ok false fs' := by
              unfold copyFileIfNeeded
              simp [hpe, hte, hov, hgs, hgt, hnewer]
            have hres : syncOneFile now₁ srcPages tgtPages g cfg f fs' =
                (fs', [], none) := by
              simp only [syncOneFile, ← hnewF]
              rw [hcopy]
              simp [hm]
            rw [hres]
            refine ⟨rfl, hinv, fun x => Or.inl rfl, fun _ => ?_⟩
            refine Or.inr ⟨.file ct mt bt, htgt', fun _ => ⟨ct, mt, bt, rfl, ?_⟩⟩
            intro c'' m'' b'' hs
            rw [hsrc'] at hs
            cases hs
            exact Nat.le_of_not_lt hnewer

/-- Skip-readiness survives later steps of the run: later writes inside the
target subtree only install fresh files stamped `now₁`, which are at least
as new as any source. -/
theorem skipReady_preserved (now₁ : Nat) (srcPages tgtPages : FPath)
    (hst : ¬ tgtPages <+: srcPages) (hts : ¬ srcPages <+: tgtPages)
    (fs : FS)
    (Hsrc : ∀ x e, lookupFS fs (srcPages ++ [x]) = some e →
      ∃ c m, e = Entry.file c m false ∧ m ≤ now₁)
    (fs' fs'' : FS)
    (hinv' : CopyInv now₁ tgtPages fs fs')
    (hinv'' : CopyInv now₁ tgtPages fs fs'')
    (hchar : ∀ x, lookupFS fs'' (tgtPages ++ [x]) =
        lookupFS fs' (tgtPages ++ [x]) ∨
      ∃ c, lookupFS fs'' (tgtPages ++ [x]) = some (.file c now₁ false))
    (cfg₀ : NsConfig) (f₀ : String)
    (hr : SkipReady srcPages tgtPages cfg₀ f₀ fs') :
    SkipReady srcPages tgtPages cfg₀ f₀ fs'' := by
  have hsrc_eq : lookupFS fs'' (srcPages ++ [f₀]) =
      lookupFS fs' (srcPages ++ [f₀]) := by
    rw [hinv''.src_eq hst hts f₀, hinv'.src_eq hst hts f₀]
  rcases hr with hpe | ⟨e, hl, hovp⟩
  · refine Or.inl ?_
    unfold pathExists at hpe ⊢
    rw [hsrc_eq]
    exact hpe
  · rcases hchar (pythonReplaceFirst f₀ cfg₀.sourceNs cfg₀.targetNs) with hkeep | ⟨c, hc⟩
    · refine Or.inr ⟨e, by rw [hkeep]; exact hl, fun hov => ?_⟩
      obtain ⟨cm, mm, bm, he, hbound⟩ := hovp hov
      exact ⟨cm, mm, bm, he, fun c' m' b' hs => hbound c' m' b' (by
        rw [← hsrc_eq]; exact hs)⟩
    · refine Or.inr ⟨.file c now₁ false, hc, fun _ => ⟨c, now₁, false, rfl, ?_⟩⟩
      intro c' m' b' hs
      rw [hinv''.src_eq hst hts f₀] at hs
      obtain ⟨cx, mx, hx, hmx⟩ := Hsrc f₀ _ hs
      cases hx
      exact hmx

/-- The file loop of the first copy run: no exception, invariant maintained,
target-subtree rewrites are fresh files, every matched listed file ends up
skip-ready, and previously skip-ready pairs stay skip-ready. -/
theorem syncFiles_run1 (now₁ : Nat) (srcPages tgtPages : FPath) (g : String)
    (hst : ¬ tgtPages <+: srcPages) (hts : ¬ srcPages <+: tgtPages)
    (fs : FS)
    (Hsrc : ∀ x e, lookupFS fs (srcPages ++ [x]) = some e →
      ∃ c m, e = Entry.file c m false ∧ m ≤ now₁)
    (Htgt : ∀ x e, lookupFS fs (tgtPages ++ [x]) = some e →
      ∃ c m b, e = Entry.file c m b)
    (cfg : NsConfig) :
    ∀ (names : List String) (fs' : FS), CopyInv now₁ tgtPages fs fs' →
      (syncFiles now₁ srcPages tgtPages g cfg names fs').2.2 = none ∧
      CopyInv now₁ tgtPages fs
        (syncFiles now₁ srcPages tgtPages g cfg names fs').1 ∧
      (∀ x, lookupFS (syncFiles now₁ srcPages tgtPages g cfg names fs').1
          (tgtPages ++ [x]) = lookupFS fs' (tgtPages ++ [x]) ∨
        ∃ c, lookupFS (syncFiles now₁ srcPages tgtPages g cfg names fs').1
          (tgtPages ++ [x]) = some (.file c now₁ false)) ∧
      (∀ f ∈ names, nsMatches cfg.sourceNs f = true →
        SkipReady srcPages tgtPages cfg f
          (syncFiles now₁ srcPages tgtPages g cfg names fs').1) ∧
      (∀ cfg₀ f₀, SkipReady srcPages tgtPages cfg₀ f₀ fs' →
        SkipReady srcPages tgtPages cfg₀ f₀
          (syncFiles now₁ srcPages tgtPages g cfg names fs').1) := by
  intro names
  induction names with
  | nil =>
    intro fs' hinv
    exact ⟨rfl, hinv, fun x => Or.inl rfl, fun f hf => absurd hf (by simp),
      fun cfg₀ f₀ hr => hr⟩
  | cons f rest ih =>
    intro fs' hinv
    obtain ⟨herr1, hinv1, hchar1, hready1⟩ :=
      syncOneFile_run1 now₁ srcPages tgtPages g hst hts fs Hsrc Htgt fs' hinv cfg f
    rcases hso : syncOneFile now₁ srcPages tgtPages g cfg f fs' with ⟨fs₁, evs, err⟩
    rw [hso] at herr1 hinv1 hchar1 hready1
    simp only at herr1 hinv1 hchar1 hready1
    subst herr1
    obtain ⟨herr2, hinv2, hchar2, hestab2, hpres2⟩ := ih fs₁ hinv1
    rcases hrest : syncFiles now₁ srcPages tgtPages g cfg rest fs₁ with ⟨fs₂, evs₂, err₂⟩
    rw [hrest] at herr2 hinv2 hchar2 hestab2 hpres2
    simp only at herr2 hinv2 hchar2 hestab2 hpres2
    have hres : syncFiles now₁ srcPages tgtPages g cfg (f :: rest) fs' =
        (fs₂, evs ++ evs₂, err₂) := by
      simp [syncFiles, hso, hrest]
    rw [hres]
    refine ⟨herr2, hinv2, ?_, ?_, ?_⟩
    · intro x
      rcases hchar2 x with hkeep | hrw
      · rcases hchar1 x with hkeep1 | hrw1
        · exact Or.inl (hkeep.trans hkeep1)
        · exact Or.inr (hkeep ▸ hrw1)
      · exact Or.inr hrw
    · intro f' hf' hm'
      rcases List.mem_cons.mp hf' with rfl | hfr
      · exact hpres2 cfg f' (hready1 hm')
      · exact hestab2 f' hfr hm'
    · intro cfg₀ f₀ hr
      refine hpres2 cfg₀ f₀ ?_
      exact skipReady_preserved now₁ srcPages tgtPages hst hts fs Hsrc fs' fs₁
        hinv hinv1 hchar1 cfg₀ f₀ hr

/-- The config loop of the first copy run. -/
theorem syncNsConfigs_run1 (now₁ : Nat) (srcPages tgtPages : FPath) (g : String)
    (hst : ¬ tgtPages <+: srcPages) (hts : ¬ srcPages <+: tgtPages)
    (fs : FS)
    (Hsrc : ∀ x e, lookupFS fs (srcPages ++ [x]) = some e →
      ∃ c m, e = Entry.file c m false ∧ m ≤ now₁)
    (Htgt : ∀ x e, lookupFS fs (tgtPages ++ [x]) = some e →
      ∃ c m b, e = Entry.file c m b) :
    ∀ (cfgs : List NsConfig) (fs' : FS), CopyInv now₁ tgtPages fs fs' →
      (syncNsConfigs now₁ srcPages tgtPages g cfgs fs').2.2 = none ∧
      CopyInv now₁ tgtPages fs
        (syncNsConfigs now₁ srcPages tgtPages g cfgs fs').1 ∧
      (∀ cfg ∈ cfgs, ∀ f ∈ listdir fs srcPages,
        nsMatches cfg.sourceNs f = true →
        SkipReady srcPages tgtPages cfg f
          (syncNsConfigs now₁ srcPages tgtPages g cfgs fs').1) ∧
      (∀ cfg₀ f₀, SkipReady srcPages tgtPages cfg₀ f₀ fs' →
        SkipReady srcPages tgtPages cfg₀ f₀
          (syncNsConfigs now₁ srcPages tgtPages g cfgs fs').1) := by
  intro cfgs
  induction cfgs with
  | nil =>
    intro fs' hinv
    exact ⟨rfl, hinv, fun cfg hc => absurd hc (by simp), fun cfg₀ f₀ hr => hr⟩
  | cons cfg rest ih =>
    intro fs' hinv
    have hnames : listdir fs' srcPages = listdir fs srcPages :=
      hinv.listdir_src hst hts
    obtain ⟨herr1, hinv1, _hchar1, hestab1, hpres1⟩ :=
      syncFiles_run1 now₁ srcPages tgtPages g hst hts fs Hsrc Htgt cfg
        (listdir fs' srcPages) fs' hinv
    rcases hsf : syncFiles now₁ srcPages tgtPages g cfg (listdir fs' srcPages) fs'
      with ⟨fs₁, evs, err⟩
    rw [hsf] at herr1 hinv1 hestab1 hpres1
    simp only at herr1 hinv1 hestab1 hpres1
    subst herr1
    obtain ⟨herr2, hinv2, hestab2, hpres2⟩ := ih fs₁ hinv1
    rcases hrest : syncNsConfigs now₁ srcPages tgtPages g rest fs₁
      with ⟨fs₂, evs₂, err₂⟩
    rw [hrest] at herr2 hinv2 hestab2 hpres2
    simp only at herr2 hinv2 hestab2 hpres2
    have hres : syncNsConfigs now₁ srcPages tgtPages g (cfg :: rest) fs' =
        (fs₂, evs ++ evs₂, err₂) := by
      simp [syncNsConfigs, hsf, hrest]
    rw [hres]
    refine ⟨herr2, hinv2, ?_, ?_⟩
    · intro cfg' hc f hf hm
      rcases List.mem_cons.mp hc with rfl | hcr
      · exact hpres2 cfg' f (hestab1 f (hnames ▸ hf) hm)
      · exact hestab2 cfg' hcr f hf hm
    · intro cfg₀ f₀ hr
      exact hpres2 cfg₀ f₀ (hpres1 cfg₀ f₀ hr)

/-- One file step of the repeated run: a skip-ready file is skipped, with
no mutation, no event, and no error — regardless of the new clock value. -/
theorem syncOneFile_run2 (now₁ now₂ : Nat) (srcPages tgtPages : FPath)
    (g : String)
    (hst : ¬ tgtPages <+: srcPages) (hts : ¬ srcPages <+: tgtPages)
    (fs : FS)
    (Hsrc : ∀ x e, lookupFS fs (srcPages ++ [x]) = some e →
      ∃ c m, e = Entry.file c m false ∧ m ≤ now₁)
    (fs₁ : FS) (hinv : CopyInv now₁ tgtPages fs fs₁)
    (cfg : NsConfig) (f : String)
    (hready : nsMatches cfg.sourceNs f = true →
      SkipReady srcPages tgtPages cfg f fs₁) :
    syncOneFile now₂ srcPages tgtPages g cfg f fs₁ = (fs₁, [], none) := by
  by_cases hm : nsMatches cfg.sourceNs f
  case neg => simp [syncOneFile, hm]
  case pos =>
    rcases hready hm with hpe | ⟨e, hl, hovp⟩
    · have hcopy : copyFileIfNeeded now₂ (srcPages ++ [f])
          (tgtPages ++ [pythonReplaceFirst f cfg.sourceNs cfg.targetNs])
          cfg.overwriteIfNewer fs₁ = .ok false fs₁ := by
        unfold copyFileIfNeeded
        simp [hpe]
      simp only [syncOneFile]
      rw [hcopy]
      simp [hm]
    · have hte : pathExists fs₁
          (tgtPages ++ [pythonReplaceFirst f cfg.sourceNs cfg.targetNs]) = true := by
        simp [pathExists, hl]
      cases hs₁ : lookupFS fs₁ (srcPages ++ [f]) with
      | none =>
        have hpe : pathExists fs₁ (srcPages ++ [f]) = false := by
          simp [pathExists, hs₁]
        have hcopy : copyFileIfNeeded now₂ (srcPages ++ [f])
            (tgtPages ++ [pythonReplaceFirst f cfg.sourceNs cfg.targetNs])
            cfg.overwriteIfNewer fs₁ = .ok false fs₁ := by
          unfold copyFileIfNeeded
          simp [hpe]
        simp only [syncOneFile]
        rw [hcopy]
        simp [hm]
      | some e0 =>
        have hsrcfs : lookupFS fs (srcPages ++ [f]) = some e0 := by
          rw [← hinv.src_eq hst hts f]
          exact hs₁
        obtain ⟨c', m', he0, _⟩ := Hsrc f e0 hsrcfs
        subst he0
        have hpe : pathExists fs₁ (srcPages ++ [f]) = true := by
          simp [pathExists, hs₁]
        by_cases hov : cfg.overwriteIfNewer
        case neg =>
          have hcopy : copyFileIfNeeded now₂ (srcPages ++ [f])
              (tgtPages ++ [pythonReplaceFirst f cfg.sourceNs cfg.targetNs])
              cfg.overwriteIfNewer fs₁ = .ok false fs₁ := by
            unfold copyFileIfNeeded
            simp [hpe, hte, hov]
          simp only [syncOneFile]
          rw [hcopy]
          simp [hm]
        case pos =>
          obtain ⟨cm, mm, bm, he, hbound⟩ := hovp hov
          subst he
          have hle : m' ≤ mm := hbound c' m' false hs₁
          have hgs : getmtime fs₁ (srcPages ++ [f]) = some m' := by
            simp [getmtime, hs₁]
          have hgt : getmtime fs₁
              (tgtPages ++ [pythonReplaceFirst f cfg.sourceNs cfg.targetNs]) =
              some mm := by
            simp [getmtime, hl]
          have hcopy : copyFileIfNeeded now₂ (srcPages ++ [f])
              (tgtPages ++ [pythonReplaceFirst f cfg.sourceNs cfg.targetNs])
              cfg.overwriteIfNewer fs₁ = .ok false fs₁ := by
            unfold copyFileIfNeeded
            simp [hpe, hte, hov, hgs, hgt, Nat.not_lt.mpr hle]
          simp only [syncOneFile]
          rw [hcopy]
          simp [hm]

/-- The file loop of the repeated run is a global no-op. -/
theorem syncFiles_run2 (now₁ now₂ : Nat) (srcPages tgtPages : FPath)
    (g : String)
    (hst : ¬ tgtPages <+: srcPages) (hts : ¬ srcPages <+: tgtPages)
    (fs : FS)
    (Hsrc : ∀ x e, lookupFS fs (srcPages ++ [x]) = some e →
      ∃ c m, e = Entry.file c m false ∧ m ≤ now₁)
    (fs₁ : FS) (hinv : CopyInv now₁ tgtPages fs fs₁) (cfg : NsConfig) :
    ∀ names : List String,
      (∀ f ∈ names, nsMatches cfg.sourceNs f = true →
        SkipReady srcPages tgtPages cfg f fs₁) →
      syncFiles now₂ srcPages tgtPages g cfg names fs₁ = (fs₁, [], none) := by
  intro names
  induction names with
  | nil => intro _; rfl
  | cons f rest ih =>
    intro h
    have hstep := syncOneFile_run2 now₁ now₂ srcPages tgtPages g hst hts fs
      Hsrc fs₁ hinv cfg f (fun hm => h f (by simp) hm)
    have hrest := ih fun f' hf' hm' => h f' (by simp [hf']) hm'
    simp [syncFiles, hstep, hrest]

/-- The config loop of the repeated run is a global no-op: zero mutations,
zero events, no error. -/
theorem syncNsConfigs_run2 (now₁ now₂ : Nat) (srcPages tgtPages : FPath)
    (g : String)
    (hst : ¬ tgtPages <+: srcPages) (hts : ¬ srcPages <+: tgtPages)
    (fs : FS)
    (Hsrc : ∀ x e, lookupFS fs (srcPages ++ [x]) = some e →
      ∃ c m, e = Entry.file c m false ∧ m ≤ now₁)
    (fs₁ : FS) (hinv : CopyInv now₁ tgtPages fs fs₁) :
    ∀ cfgs : List NsConfig,
      (∀ cfg ∈ cfgs, ∀ f ∈ listdir fs srcPages,
        nsMatches cfg.sourceNs f = true →
        SkipReady srcPages tgtPages cfg f fs₁) →
      syncNsConfigs now₂ srcPages tgtPages g cfgs fs₁ = (fs₁, [], none) := by
  intro cfgs
  induction cfgs with
  | nil => intro _; rfl
  | cons cfg rest ih =>
    intro h
    have hnames : listdir fs₁ srcPages = listdir fs srcPages :=
      hinv.listdir_src hst hts
    have hstep := syncFiles_run2 now₁ now₂ srcPages tgtPages g hst hts fs
      Hsrc fs₁ hinv cfg (listdir fs₁ srcPages)
      (fun f hf hm => h cfg (by simp) f (hnames ▸ hf) hm)
    have hrest := ih fun cfg' hc f hf hm => h cfg' (by simp [hc]) f hf hm
    simp [syncNsConfigs, hstep, hrest]

/-- C10: the copy strategy is idempotent.  On a filesystem whose source
pages are readable files no newer than the first run's clock and whose
pre-existing target-path entries are regular files, the first run of the
namespace-config loop raises nothing, and — because a written target is
stamped with the run's clock, which is at least every source's mtime — an
immediately repeated run on the unchanged sources performs zero copies and
zero writes (it returns the filesystem unchanged with an empty event list)
under both values of overwrite-if-source-is-newer. -/
theorem copy_materialization_idempotent (now₁ now₂ : Nat)
    (srcPages tgtPages : FPath) (g : String) (cfgs : List NsConfig) (fs : FS)
    (hst : ¬ tgtPages <+: srcPages) (hts : ¬ srcPages <+: tgtPages)
    (Hsrc : ∀ x e, lookupFS fs (srcPages ++ [x]) = some e →
      ∃ c m, e = Entry.file c m false ∧ m ≤ now₁)
    (Htgt : ∀ x e, lookupFS fs (tgtPages ++ [x]) = some e →
      ∃ c m b, e = Entry.file c m b) :
    (syncNsConfigs now₁ srcPages tgtPages g cfgs fs).2.2 = none ∧
    syncNsConfigs now₂ srcPages tgtPages g cfgs
        (syncNsConfigs now₁ srcPages tgtPages g cfgs fs).1 =
      ((syncNsConfigs now₁ srcPages tgtPages g cfgs fs).1, [], none) := by
  obtain ⟨herr, hinv, hready, _⟩ :=
    syncNsConfigs_run1 now₁ srcPages tgtPages g hst hts fs Hsrc Htgt cfgs fs
      (CopyInv.refl now₁ tgtPages fs)
  refine ⟨herr, ?_⟩
  exact syncNsConfigs_run2 now₁ now₂ srcPages tgtPages g hst hts fs Hsrc _ hinv
    cfgs fun cfg hc f hf hm => hready cfg hc f hf hm

/-- Concrete world for the C10 witness. -/
def fs10 : FS :=
  [(["python", "pages"], .dir),
   (["python", "pages", "Python.md"], .file "hi" 1 false),
   (["work", "pages"], .dir)]

/-- Witness for C10 at a concrete input. -/
theorem copy_materialization_idempotent_witness :
    (syncNsConfigs 5 ["python", "pages"] ["work", "pages"] "python"
        [⟨"Python", "Python", true⟩] fs10).2.2 = none ∧
    syncNsConfigs 7 ["python", "pages"] ["work", "pages"] "python"
        [⟨"Python", "Python", true⟩]
        (syncNsConfigs 5 ["python", "pages"] ["work", "pages"] "python"
          [⟨"Python", "Python", true⟩] fs10).1 =
      ((syncNsConfigs 5 ["python", "pages"] ["work", "pages"] "python"
          [⟨"Python", "Python", true⟩] fs10).1, [], none) := by
  refine copy_materialization_idempotent 5 7 ["python", "pages"] ["work", "pages"]
    "python" [⟨"Python", "Python", true⟩] fs10 (by decide) (by decide) ?_ ?_
  · intro x e h
    by_cases hx : x = "Python.md"
    · subst hx
      simp [fs10, lookupFS] at h
      exact ⟨"hi", 1, h.symm, by omega⟩
    · exfalso
      simp [fs10, lookupFS] at h
      exact hx h.1.symm
  · intro x e h
    simp [fs10, lookupFS] at h

/-! ## Claim C2: correctness of detect_cycle_dfs -/

theorem neighborsOf_subset_universe (adj : AdjList) (v : FPath) :
    ∀ n ∈ neighborsOf adj v, n ∈ nodeUniverse adj := by
  intro n hn
  unfold neighborsOf at hn
  cases hf : adj.find? fun e => e.1 == v with
  | none => rw [hf] at hn; cases hn
  | some kd =>
    rw [hf] at hn
    have hmem : kd ∈ adj := List.mem_of_find?_eq_some hf
    unfold nodeUniverse
    refine Finset.mem_union_right _ ?_
    rw [List.mem_toFinset]
    refine List.mem_flatMap.mpr ⟨kd, hmem, ?_⟩
    exact hn

theorem key_mem_universe (adj : AdjList) {k : FPath}
    (hk : k ∈ adj.map (·.1)) : k ∈ nodeUniverse adj := by
  unfold nodeUniverse
  exact Finset.mem_union_left _ (List.mem_toFinset.mpr hk)

/-- A key node of the adjacency list is whatever has an outgoing edge. -/
theorem edge_source_is_key (adj : AdjList) {n w : FPath}
    (h : EdgeRel adj n w) : n ∈ adj.map (·.1) := by
  unfold EdgeRel neighborsOf at h
  cases hf : adj.find? fun e => e.1 == n with
  | none => rw [hf] at h; cases h
  | some kd =>
    have hmem : kd ∈ adj := List.mem_of_find?_eq_some hf
    have hpred := List.find?_some hf
    have hkn : kd.1 = n := by simpa using hpred
    exact hkn ▸ List.mem_map.mpr ⟨kd, hmem, rfl⟩

/-- Fuel sufficiency and visited-set growth: with enough fuel relative to
the unvisited part of the node universe, the DFS never hits the fuel
bound, and a normal return only grows the visited set inside the
universe. -/
theorem dfs_fuel_spec (adj : AdjList) : ∀ fuel : Nat,
    (∀ (stack : List FPath) (visited : Finset FPath) (v : FPath),
      visited ⊆ nodeUniverse adj → v ∈ nodeUniverse adj → v ∉ visited →
      (nodeUniverse adj \ visited).card ≤ fuel →
      dfsVisit adj fuel stack visited v ≠ .error none ∧
      ∀ vis', dfsVisit adj fuel stack visited v = .ok vis' →
        visited ⊆ vis' ∧ vis' ⊆ nodeUniverse adj) ∧
    (∀ (stack : List FPath) (visited : Finset FPath) (ns : List FPath),
      visited ⊆ nodeUniverse adj → (∀ n ∈ ns, n ∈ nodeUniverse adj) →
      (nodeUniverse adj \ visited).card ≤ fuel →
      dfsNeighbors adj fuel stack visited ns ≠ .error none ∧
      ∀ vis', dfsNeighbors adj fuel stack visited ns = .ok vis' →
        visited ⊆ vis' ∧ vis' ⊆ nodeUniverse adj) := by
  intro fuel
  induction fuel with
  | zero =>
    constructor
    · intro stack visited v hvu hv hnv hcard
      exfalso
      have hmem : v ∈ nodeUniverse adj \ visited := Finset.mem_sdiff.mpr ⟨hv, hnv⟩
      have : 0 < (nodeUniverse adj \ visited).card := Finset.card_pos.mpr ⟨v, hmem⟩
      omega
    · intro stack visited ns hvu hns hcard
      induction ns with
      | nil =>
        refine ⟨by simp [dfsNeighbors, dfsNeighborsGo], ?_⟩
        intro vis' h
        simp only [dfsNeighbors, dfsNeighborsGo] at h
        cases h
        exact ⟨le_refl _, hvu⟩
      | cons n ns ihn =>
        have hnvis : n ∈ visited := by
          by_contra hc
          have hmem : n ∈ nodeUniverse adj \ visited :=
            Finset.mem_sdiff.mpr ⟨hns n (by simp), hc⟩
          have : 0 < (nodeUniverse adj \ visited).card :=
            Finset.card_pos.mpr ⟨n, hmem⟩
          omega
        obtain ⟨ih1, ih2⟩ := ihn (fun m hm => hns m (by simp [hm]))
        by_cases hstk : n ∈ stack
        · refine ⟨?_, ?_⟩
          · simp [dfsNeighbors, dfsNeighborsGo, hnvis, hstk]
          · intro vis' h
            simp [dfsNeighbors, dfsNeighborsGo, hnvis, hstk] at h
        · refine ⟨?_, ?_⟩
          · simpa [dfsNeighbors, dfsNeighborsGo, hnvis, hstk] using ih1
          · intro vis' h
            exact ih2 vis'
              (by simpa [dfsNeighbors, dfsNeighborsGo, hnvis, hstk] using h)
  | succ fuel ih =>
    have hdfs : ∀ (stack : List FPath) (visited : Finset FPath) (v : FPath),
        visited ⊆ nodeUniverse adj → v ∈ nodeUniverse adj → v ∉ visited →
        (nodeUniverse adj \ visited).card ≤ fuel + 1 →
        dfsVisit adj (fuel + 1) stack visited v ≠ .error none ∧
        ∀ vis', dfsVisit adj (fuel + 1) stack visited v = .ok vis' →
          visited ⊆ vis' ∧ vis' ⊆ nodeUniverse adj := by
      intro stack visited v hvu hv hnv hcard
      have hsub : insert v visited ⊆ nodeUniverse adj := by
        intro x hx
        rcases Finset.mem_insert.mp hx with rfl | hx
        · exact hv
        · exact hvu hx
      have hcard' : (nodeUniverse adj \ insert v visited).card ≤ fuel := by
        have hdiff : nodeUniverse adj \ insert v visited =
            (nodeUniverse adj \ visited).erase v := by
          ext x
          simp [Finset.mem_sdiff, Finset.mem_erase, Finset.mem_insert]
          tauto
        have hvmem : v ∈ nodeUniverse adj \ visited :=
          Finset.mem_sdiff.mpr ⟨hv, hnv⟩
        rw [hdiff, Finset.card_erase_of_mem hvmem]
        omega
      obtain ⟨ih1, ih2⟩ := ih.2 (v :: stack) (insert v visited)
        (neighborsOf adj v) hsub (neighborsOf_subset_universe adj v) hcard'
      refine ⟨?_, ?_⟩
      · simpa [dfsVisit] using ih1
      · intro vis' h
        simp only [dfsVisit] at h
        obtain ⟨hmono, hsub'⟩ := ih2 vis' h
        exact ⟨fun x hx => hmono (Finset.mem_insert_of_mem hx), hsub'⟩
    refine ⟨hdfs, ?_⟩
    intro stack visited ns
    induction ns generalizing visited with
    | nil =>
      intro hvu hns hcard
      refine ⟨by simp [dfsNeighbors, dfsNeighborsGo], ?_⟩
      intro vis' h
      simp only [dfsNeighbors, dfsNeighborsGo] at h
      cases h
      exact ⟨le_refl _, hvu⟩
    | cons n ns ihn =>
      intro hvu hns hcard
      by_cases hnvis : n ∈ visited
      · by_cases hstk : n ∈ stack
        · refine ⟨?_, ?_⟩
          · simp [dfsNeighbors, dfsNeighborsGo, hnvis, hstk]
          · intro vis' h
            simp [dfsNeighbors, dfsNeighborsGo, hnvis, hstk] at h
        · obtain ⟨ih1, ih2⟩ := ihn visited hvu
            (fun m hm => hns m (by simp [hm])) hcard
          refine ⟨?_, ?_⟩
          · simpa [dfsNeighbors, dfsNeighborsGo, hnvis, hstk] using ih1
          · intro vis' h
            exact ih2 vis' (by simpa [dfsNeighbors, dfsNeighborsGo, hnvis, hstk] using h)
      · obtain ⟨hd1, hd2⟩ := hdfs stack visited n hvu (hns n (by simp)) hnvis hcard
        rcases hv : dfsVisit adj (fuel + 1) stack visited n with e | vis₁
        · cases e with
          | none => exact absurd hv hd1
          | some m =>
            refine ⟨?_, ?_⟩
            · simp [dfsNeighbors, dfsNeighborsGo, hnvis, hv]
            · intro vis' h
              simp [dfsNeighbors, dfsNeighborsGo, hnvis, hv] at h
        · obtain ⟨hmono1, hsub1⟩ := hd2 vis₁ hv
          have hcard1 : (nodeUniverse adj \ vis₁).card ≤ fuel + 1 := by
            refine le_trans (Finset.card_le_card ?_) hcard
            intro x hx
            rw [Finset.mem_sdiff] at hx ⊢
            exact ⟨hx.1, fun hc => hx.2 (hmono1 hc)⟩
          obtain ⟨ih1, ih2⟩ := ihn vis₁ hsub1
            (fun m hm => hns m (by simp [hm])) hcard1
          refine ⟨?_, ?_⟩
          · simpa [dfsNeighbors, dfsNeighborsGo, hnvis, hv] using ih1
          · intro vis' h
            have h' : dfsNeighbors adj (fuel + 1) stack vis₁ ns = .ok vis' := by
              simpa [dfsNeighbors, dfsNeighborsGo, hnvis, hv] using h
            obtain ⟨hm2, hs2⟩ := ih2 vis' h'
            exact ⟨fun x hx => hm2 (hmono1 hx), hs2⟩

theorem ReachRel.tail {adj : AdjList} {u w v : FPath}
    (h : ReachRel adj u w) (he : EdgeRel adj w v) : ReachRel adj u v := by
  induction h with
  | refl => exact .head he (.refl _)
  | head h1 _ ih => exact .head h1 (ih he)

/-- The recursion stack of the DFS, innermost node first: consecutive
entries are connected by an edge from the caller to the callee. -/
def StackChain (adj : AdjList) : List FPath → Prop
  | [] => True
  | [_] => True
  | a :: b :: t => EdgeRel adj b a ∧ StackChain adj (b :: t)

theorem chain_reach (adj : AdjList) :
    ∀ (s : List FPath) (w : FPath), StackChain adj (w :: s) →
      ∀ n ∈ w :: s, ReachRel adj n w := by
  intro s
  induction s with
  | nil =>
    intro w _ n hn
    rcases List.mem_singleton.mp hn with rfl
    exact .refl n
  | cons b t ih =>
    intro w hchain n hn
    obtain ⟨hbw, hbt⟩ := hchain
    rcases List.mem_cons.mp hn with rfl | hn'
    · exact .refl n
    · exact (ih b hbt n hn').tail hbw

theorem cycleThrough_of_reach_edge {adj : AdjList} {n w : FPath}
    (hr : ReachRel adj n w) (he : EdgeRel adj w n) : CycleThrough adj n := by
  cases hr with
  | refl => exact ⟨n, he, .refl n⟩
  | head h1 h2 => exact ⟨_, h1, h2.tail he⟩

/-- Soundness of the DFS: when the recursion stack is a real chain of
edges, a raised cycle exception names a node that really lies on a
cycle. -/
theorem dfs_sound (adj : AdjList) : ∀ fuel : Nat,
    (∀ (stack : List FPath) (visited : Finset FPath) (v : FPath),
      StackChain adj (v :: stack) →
      ∀ n, dfsVisit adj fuel stack visited v = .error (some n) →
        CycleThrough adj n) ∧
    (∀ (w : FPath) (s : List FPath) (ns : List FPath),
      StackChain adj (w :: s) →
      ∀ (visited : Finset FPath), (∀ n ∈ ns, EdgeRel adj w n) →
      ∀ n₀, dfsNeighbors adj fuel (w :: s) visited ns = .error (some n₀) →
        CycleThrough adj n₀) := by
  intro fuel
  induction fuel with
  | zero =>
    constructor
    · intro stack visited v _ n h
      simp [dfsVisit] at h
    · intro w s ns hchain
      induction ns with
      | nil =>
        intro visited _ n₀ h
        simp [dfsNeighbors, dfsNeighborsGo] at h
      | cons n ns ihn =>
        intro visited hns n₀ h
        by_cases hnv : n ∈ visited
        · by_cases hstk : n ∈ w :: s
          · have hn0 : n = n₀ := by
              simp [dfsNeighbors, dfsNeighborsGo, hnv, hstk] at h
              exact h
            subst hn0
            exact cycleThrough_of_reach_edge
              (chain_reach adj s w hchain n hstk) (hns n (by simp))
          · exact ihn visited (fun m hm => hns m (by simp [hm])) n₀
              (by simpa [dfsNeighbors, dfsNeighborsGo, hnv, hstk] using h)
        · simp [dfsNeighbors, dfsNeighborsGo, hnv, dfsVisit] at h
    | succ fuel ih =>
      have hdfs : ∀ (stack : List FPath) (visited : Finset FPath) (v : FPath),
          StackChain adj (v :: stack) →
          ∀ n, dfsVisit adj (fuel + 1) stack visited v = .error (some n) →
            CycleThrough adj n := by
        intro stack visited v hchain n h
        simp only [dfsVisit] at h
        exact ih.2 v stack (neighborsOf adj v) hchain (insert v visited)
          (fun m hm => hm) n h
      refine ⟨hdfs, ?_⟩
      intro w s ns hchain
      induction ns with
      | nil =>
        intro visited _ n₀ h
        simp [dfsNeighbors, dfsNeighborsGo] at h
      | cons n ns ihn =>
        intro visited hns n₀ h
        by_cases hnv : n ∈ visited
        · by_cases hstk : n ∈ w :: s
          · have hn0 : n = n₀ := by
              simp [dfsNeighbors, dfsNeighborsGo, hnv, hstk] at h
              exact h
            subst hn0
            exact cycleThrough_of_reach_edge
              (chain_reach adj s w hchain n hstk) (hns n (by simp))
          · exact ihn visited (fun m hm => hns m (by simp [hm])) n₀
              (by simpa [dfsNeighbors, dfsNeighborsGo, hnv, hstk] using h)
        · rcases hv : dfsVisit adj (fuel + 1) (w :: s) visited n with e | vis₁
          · have he : e = some n₀ := by
              simp [dfsNeighbors, dfsNeighborsGo, hnv, hv] at h
              exact h
            subst he
            exact hdfs (w :: s) visited n ⟨hns n (by simp), hchain⟩ n₀ hv
          · exact ihn vis₁ (fun m hm => hns m (by simp [hm])) n₀
              (by simpa [dfsNeighbors, dfsNeighborsGo, hnv, hv] using h)

/-- A reverse-topological certificate: each listed node's neighbors all
appear strictly later in the list (they finished earlier in the DFS). -/
def TopoOk (adj : AdjList) : List FPath → Prop
  | [] => True
  | n :: L => (∀ m ∈ neighborsOf adj n, m ∈ L) ∧ TopoOk adj L

theorem topoOk_suffix_neighbors {adj : AdjList} :
    ∀ {L : List FPath}, TopoOk adj L → ∀ {u : FPath} {s : List FPath},
      (u :: s) <:+ L → ∀ m ∈ neighborsOf adj u, m ∈ s := by
  intro L
  induction L with
  | nil =>
    intro _ u s hsuf
    have := List.suffix_nil.mp hsuf
    cases this
  | cons n L' ih =>
    intro hL u s hsuf
    rcases List.suffix_cons_iff.mp hsuf with heq | hsuf'
    · injection heq with h1 h2
      subst h1
      subst h2
      exact hL.1
    · exact ih hL.2 hsuf'

theorem mem_suffix {α : Type} {n : α} :
    ∀ {s : List α}, n ∈ s → ∃ s', (n :: s') <:+ s := by
  intro s
  induction s with
  | nil => intro h; cases h
  | cons a t ih =>
    intro h
    rcases List.mem_cons.mp h with rfl | ht
    · exact ⟨t, List.suffix_refl _⟩
    · obtain ⟨s', hs'⟩ := ih ht
      exact ⟨s', hs'.trans (List.suffix_cons a t)⟩

theorem topoOk_reach {adj : AdjList} {L : List FPath} (hL : TopoOk adj L)
    {u v : FPath} (hr : ReachRel adj u v) :
    ∀ s : List FPath, (u :: s) <:+ L → v = u ∨ v ∈ s := by
  induction hr with
  | refl w => intro s _; exact Or.inl rfl
  | head h1 _ ih =>
    intro s hsuf
    have hw := topoOk_suffix_neighbors hL hsuf _ h1
    obtain ⟨s', hs'⟩ := mem_suffix hw
    have hsufL : _ <:+ L := hs'.trans ((List.suffix_cons _ s).trans hsuf)
    rcases ih s' hsufL with rfl | hv
    · exact Or.inr hw
    · exact Or.inr (hs'.subset (by simp [hv]))

theorem topoOk_no_cycle {adj : AdjList} {L : List FPath} (hL : TopoOk adj L)
    (hnd : L.Nodup) : ∀ v ∈ L, ¬ CycleThrough adj v := by
  rintro v hv ⟨w, he, hr⟩
  obtain ⟨s, hs⟩ := mem_suffix hv
  have hw := topoOk_suffix_neighbors hL hs _ he
  obtain ⟨s', hs'⟩ := mem_suffix hw
  have hsufL : _ <:+ L := hs'.trans ((List.suffix_cons _ s).trans hs)
  have hnds : (v :: s).Nodup := hnd.sublist hs.sublist
  rcases topoOk_reach hL hr s' hsufL with rfl | hv'
  · exact (List.nodup_cons.mp hnds).1 hw
  · exact (List.nodup_cons.mp hnds).1 (hs'.subset (by simp [hv']))

/-- Completeness invariant of the DFS: a normal return extends a reverse-
topological certificate covering exactly the finished (visited, off-stack)
nodes. -/
theorem dfs_complete (adj : AdjList) : ∀ fuel : Nat,
    (∀ (stack : List FPath) (visited : Finset FPath) (v : FPath) (L : List FPath),
      stack.toFinset ⊆ visited → v ∉ visited →
      TopoOk adj L → L.Nodup → L.toFinset = visited \ stack.toFinset →
      ∀ vis', dfsVisit adj fuel stack visited v = .ok vis' →
        ∃ L', TopoOk adj L' ∧ L'.Nodup ∧ L'.toFinset = vis' \ stack.toFinset ∧
          v ∈ vis' ∧ visited ⊆ vis') ∧
    (∀ (stack : List FPath) (ns : List FPath) (visited : Finset FPath)
        (L : List FPath),
      stack.toFinset ⊆ visited →
      TopoOk adj L → L.Nodup → L.toFinset = visited \ stack.toFinset →
      ∀ vis', dfsNeighbors adj fuel stack visited ns = .ok vis' →
        ∃ L', TopoOk adj L' ∧ L'.Nodup ∧ L'.toFinset = vis' \ stack.toFinset ∧
          visited ⊆ vis' ∧ ∀ n ∈ ns, n ∈ vis' ∧ n ∉ stack) := by
  intro fuel
  induction fuel with
  | zero =>
    constructor
    · intro stack visited v L _ _ _ _ _ vis' h
      simp [dfsVisit] at h
    · intro stack ns
      induction ns with
      | nil =>
        intro visited L hsv htopo hnd hset vis' h
        simp only [dfsNeighbors, dfsNeighborsGo] at h
        cases h
        exact ⟨L, htopo, hnd, hset, le_refl _, fun n hn => absurd hn (by simp)⟩
      | cons n ns ihn =>
        intro visited L hsv htopo hnd hset vis' h
        by_cases hnv : n ∈ visited
        · by_cases hstk : n ∈ stack
          · simp [dfsNeighbors, dfsNeighborsGo, hnv, hstk] at h
          · obtain ⟨L', h1, h2, h3, h4, h5⟩ := ihn visited L hsv htopo hnd hset
              vis' (by simpa [dfsNeighbors, dfsNeighborsGo, hnv, hstk] using h)
            exact ⟨L', h1, h2, h3, h4, fun m hm => by
              rcases List.mem_cons.mp hm with rfl | hm'
              · exact ⟨h4 hnv, hstk⟩
              · exact h5 m hm'⟩
        · simp [dfsNeighbors, dfsNeighborsGo, hnv, dfsVisit] at h
  | succ fuel ih =>
    have hdfs : ∀ (stack : List FPath) (visited : Finset FPath) (v : FPath)
        (L : List FPath),
        stack.toFinset ⊆ visited → v ∉ visited →
        TopoOk adj L → L.Nodup → L.toFinset = visited \ stack.toFinset →
        ∀ vis', dfsVisit adj (fuel + 1) stack visited v = .ok vis' →
          ∃ L', TopoOk adj L' ∧ L'.Nodup ∧
            L'.toFinset = vis' \ stack.toFinset ∧ v ∈ vis' ∧ visited ⊆ vis' := by
      intro stack visited v L hsv hvv htopo hnd hset vis' h
      simp only [dfsVisit] at h
      have hsv' : (v :: stack).toFinset ⊆ insert v visited := by
        intro x hx
        rw [List.toFinset_cons, Finset.mem_insert] at hx
        rcases hx with rfl | hx
        · exact Finset.mem_insert_self x visited
        · exact Finset.mem_insert_of_mem (hsv hx)
      have hset' : L.toFinset = insert v visited \ (v :: stack).toFinset := by
        rw [hset]
        ext x
        simp only [Finset.mem_sdiff, List.toFinset_cons, Finset.mem_insert]
        constructor
        · rintro ⟨hx1, hx2⟩
          exact ⟨Or.inr hx1, fun hc => hc.elim (fun hxv => hvv (hxv ▸ hx1)) hx2⟩
        · rintro ⟨hx1, hx2⟩
          rcases hx1 with rfl | hx1
          · exact absurd (Or.inl rfl) hx2
          · exact ⟨hx1, fun hc => hx2 (Or.inr hc)⟩
      obtain ⟨L₁, htopo₁, hnd₁, hset₁, hmono₁, hns₁⟩ :=
        ih.2 (v :: stack) (neighborsOf adj v) (insert v visited) L hsv'
          htopo hnd hset' vis' h
      have hvvis' : v ∈ vis' := hmono₁ (Finset.mem_insert_self v visited)
      have hvnotL₁ : v ∉ L₁ := by
        intro hc
        have hx : v ∈ vis' \ (v :: stack).toFinset := by
          rw [← hset₁]
          exact List.mem_toFinset.mpr hc
        rw [Finset.mem_sdiff] at hx
        exact hx.2 (by simp)
      have hnbL₁ : ∀ m ∈ neighborsOf adj v, m ∈ L₁ := by
        intro m hm
        obtain ⟨hm1, hm2⟩ := hns₁ m hm
        rw [← List.mem_toFinset, hset₁, Finset.mem_sdiff]
        refine ⟨hm1, ?_⟩
        rw [List.toFinset_cons, Finset.mem_insert]
        rintro (rfl | hc)
        · exact hm2 (by simp)
        · exact hm2 (by simp [List.mem_toFinset.mp hc])
      refine ⟨v :: L₁, ⟨hnbL₁, htopo₁⟩, List.nodup_cons.mpr ⟨hvnotL₁, hnd₁⟩, ?_,
        hvvis', fun x hx => hmono₁ (Finset.mem_insert_of_mem hx)⟩
      ext x
      simp only [List.toFinset_cons, Finset.mem_insert, List.mem_toFinset,
        Finset.mem_sdiff]
      constructor
      · rintro (rfl | hx)
        · exact ⟨hvvis', fun hc => hvv (hsv (List.mem_toFinset.mpr hc))⟩
        · have hx' : x ∈ vis' \ (v :: stack).toFinset := by
            rw [← hset₁]
            exact List.mem_toFinset.mpr hx
          rw [Finset.mem_sdiff, List.toFinset_cons] at hx'
          exact ⟨hx'.1, fun hc =>
            hx'.2 (Finset.mem_insert_of_mem (List.mem_toFinset.mpr hc))⟩
      · rintro ⟨hx1, hx2⟩
        by_cases hxv : x = v
        · exact Or.inl hxv
        · refine Or.inr ?_
          have : x ∈ vis' \ (v :: stack).toFinset := by
            rw [Finset.mem_sdiff, List.toFinset_cons]
            exact ⟨hx1, fun hc => (Finset.mem_insert.mp hc).elim hxv
              fun hc' => hx2 (List.mem_toFinset.mp hc')⟩
          rw [← hset₁] at this
          exact List.mem_toFinset.mp this
    refine ⟨hdfs, ?_⟩
    intro stack ns
    induction ns with
    | nil =>
      intro visited L hsv htopo hnd hset vis' h
      simp only [dfsNeighbors, dfsNeighborsGo] at h
      cases h
      exact ⟨L, htopo, hnd, hset, le_refl _, fun n hn => absurd hn (by simp)⟩
    | cons n ns ihn =>
      intro visited L hsv htopo hnd hset vis' h
      by_cases hnv : n ∈ visited
      · by_cases hstk : n ∈ stack
        · simp [dfsNeighbors, dfsNeighborsGo, hnv, hstk] at h
        · obtain ⟨L', h1, h2, h3, h4, h5⟩ := ihn visited L hsv htopo hnd hset
            vis' (by simpa [dfsNeighbors, dfsNeighborsGo, hnv, hstk] using h)
          exact ⟨L', h1, h2, h3, h4, fun m hm => by
            rcases List.mem_cons.mp hm with rfl | hm'
            · exact ⟨h4 hnv, hstk⟩
            · exact h5 m hm'⟩
      · rcases hv : dfsVisit adj (fuel + 1) stack visited n with e | vis₁
        · simp [dfsNeighbors, dfsNeighborsGo, hnv, hv] at h
        · have h' : dfsNeighbors adj (fuel + 1) stack vis₁ ns = .ok vis' := by
            simpa [dfsNeighbors, dfsNeighborsGo, hnv, hv] using h
          obtain ⟨L₁, htopo₁, hnd₁, hset₁, hn₁, hmono₁⟩ :=
            hdfs stack visited n L hsv hnv htopo hnd hset vis₁ hv
          have hsv₁ : stack.toFinset ⊆ vis₁ := fun x hx => hmono₁ (hsv hx)
          obtain ⟨L', h1, h2, h3, h4, h5⟩ := ihn vis₁ L₁ hsv₁ htopo₁ hnd₁ hset₁
            vis' h'
          have hnstk : n ∉ stack := fun hc =>
            hnv (hsv (List.mem_toFinset.mpr hc))
          exact ⟨L', h1, h2, h3, fun x hx => h4 (hmono₁ hx), fun m hm => by
            rcases List.mem_cons.mp hm with rfl | hm'
            · exact ⟨h4 hn₁, hnstk⟩
            · exact h5 m hm'⟩

theorem fuel_enough (adj : AdjList) {visited : Finset FPath}
    (_hvu : visited ⊆ nodeUniverse adj) :
    (nodeUniverse adj \ visited).card ≤ dfsFuel adj := by
  unfold dfsFuel
  have := Finset.card_le_card (Finset.sdiff_subset (s := nodeUniverse adj)
    (t := visited))
  omega

/-- The root loop of detect_cycle_dfs, completeness side: a normal return
produces a topological certificate covering every key node. -/
theorem detectAux_complete (adj : AdjList) :
    ∀ (ks : List FPath) (visited : Finset FPath) (L : List FPath),
      (∀ k ∈ ks, k ∈ nodeUniverse adj) → visited ⊆ nodeUniverse adj →
      TopoOk adj L → L.Nodup → L.toFinset = visited →
      ∀ vis', detectCycleAux adj ks visited = .ok vis' →
        ∃ L', TopoOk adj L' ∧ L'.Nodup ∧ L'.toFinset = vis' ∧
          visited ⊆ vis' ∧ vis' ⊆ nodeUniverse adj ∧ ∀ k ∈ ks, k ∈ vis' := by
  intro ks
  induction ks with
  | nil =>
    intro visited L _ hvu htopo hnd hset vis' h
    simp only [detectCycleAux] at h
    cases h
    exact ⟨L, htopo, hnd, hset, le_refl _, hvu, fun k hk => absurd hk (by simp)⟩
  | cons k ks ih =>
    intro visited L hks hvu htopo hnd hset vis' h
    by_cases hkv : k ∈ visited
    · obtain ⟨L', h1, h2, h3, h4, h5, h6⟩ := ih visited L
        (fun m hm => hks m (by simp [hm])) hvu htopo hnd hset vis'
        (by simpa [detectCycleAux, hkv] using h)
      exact ⟨L', h1, h2, h3, h4, h5, fun m hm => by
        rcases List.mem_cons.mp hm with rfl | hm'
        · exact h4 hkv
        · exact h6 m hm'⟩
    · rcases hv : dfsVisit adj (dfsFuel adj) [] visited k with e | vis₁
      · simp [detectCycleAux, hkv, hv] at h
      · have h' : detectCycleAux adj ks vis₁ = .ok vis' := by
          simpa [detectCycleAux, hkv, hv] using h
        have hset0 : L.toFinset = visited \ (([] : List FPath)).toFinset := by
          simpa using hset
        obtain ⟨L₁, htopo₁, hnd₁, hset₁, hk₁, hmono₁⟩ :=
          (dfs_complete adj (dfsFuel adj)).1 [] visited k L (by simp) hkv
            htopo hnd hset0 vis₁ hv
        have hsub₁ : vis₁ ⊆ nodeUniverse adj :=
          ((dfs_fuel_spec adj (dfsFuel adj)).1 [] visited k hvu
            (hks k (by simp)) hkv (fuel_enough adj hvu)).2 vis₁ hv |>.2
        have hset₁' : L₁.toFinset = vis₁ := by simpa using hset₁
        obtain ⟨L', h1, h2, h3, h4, h5, h6⟩ := ih vis₁ L₁
          (fun m hm => hks m (by simp [hm])) hsub₁ htopo₁ hnd₁ hset₁' vis' h'
        exact ⟨L', h1, h2, h3, fun x hx => h4 (hmono₁ hx), h5, fun m hm => by
          rcases List.mem_cons.mp hm with rfl | hm'
          · exact h4 hk₁
          · exact h6 m hm'⟩

/-- The root loop of detect_cycle_dfs, soundness side: an exception names a
node on a real cycle (and the fuel bound is never the cause). -/
theorem detectAux_sound (adj : AdjList) :
    ∀ (ks : List FPath) (visited : Finset FPath),
      (∀ k ∈ ks, k ∈ nodeUniverse adj) → visited ⊆ nodeUniverse adj →
      ∀ e, detectCycleAux adj ks visited = .error e →
        ∃ n, e = some n ∧ CycleThrough adj n := by
  intro ks
  induction ks with
  | nil =>
    intro visited _ _ e h
    simp [detectCycleAux] at h
  | cons k ks ih =>
    intro visited hks hvu e h
    by_cases hkv : k ∈ visited
    · exact ih visited (fun m hm => hks m (by simp [hm])) hvu e
        (by simpa [detectCycleAux, hkv] using h)
    · rcases hv : dfsVisit adj (dfsFuel adj) [] visited k with e' | vis₁
      · have hee : e' = e := by
          simp [detectCycleAux, hkv, hv] at h
          exact h
        subst hee
        cases e' with
        | none =>
          exact absurd hv (((dfs_fuel_spec adj (dfsFuel adj)).1 [] visited k hvu
            (hks k (by simp)) hkv (fuel_enough adj hvu)).1)
        | some n =>
          exact ⟨n, rfl, (dfs_sound adj (dfsFuel adj)).1 [] visited k
            trivial n hv⟩
      · have hsub₁ : vis₁ ⊆ nodeUniverse adj :=
          ((dfs_fuel_spec adj (dfsFuel adj)).1 [] visited k hvu
            (hks k (by simp)) hkv (fuel_enough adj hvu)).2 vis₁ hv |>.2
        exact ih vis₁ (fun m hm => hks m (by simp [hm])) hsub₁ e
          (by simpa [detectCycleAux, hkv, hv] using h)

theorem detectDfs_sound (adj : AdjList) :
    ∀ e, detectCycleDfs adj = .error e → ∃ n, e = some n ∧ CycleThrough adj n := by
  have hks : ∀ k ∈ adj.map (·.1), k ∈ nodeUniverse adj := fun k hk =>
    key_mem_universe adj hk
  intro e h
  rcases haux : detectCycleAux adj (adj.map (·.1)) ∅ with e' | vis'
  · have hee : e' = e := by
      simp [detectCycleDfs, haux] at h
      exact h
    subst hee
    exact detectAux_sound adj (adj.map (·.1)) ∅ hks (by simp) e' haux
  · simp [detectCycleDfs, haux] at h

theorem detectDfs_acyclic_of_ok (adj : AdjList)
    (h : detectCycleDfs adj = .ok ()) : ¬ HasCycle adj := by
  have hks : ∀ k ∈ adj.map (·.1), k ∈ nodeUniverse adj := fun k hk =>
    key_mem_universe adj hk
  rcases haux : detectCycleAux adj (adj.map (·.1)) ∅ with e' | vis'
  · simp [detectCycleDfs, haux] at h
  · obtain ⟨L', htopo, hnd, hLv, _, _, hkv⟩ :=
      detectAux_complete adj (adj.map (·.1)) ∅ [] hks (by simp)
        trivial (by simp) (by simp) vis' haux
    rintro ⟨n, hcyc⟩
    obtain ⟨w, he, hr⟩ := hcyc
    have hnk : n ∈ adj.map (·.1) := edge_source_is_key adj he
    have hnL : n ∈ L' := List.mem_toFinset.mp (hLv ▸ hkv n hnk)
    exact topoOk_no_cycle htopo hnd n hnL ⟨w, he, hr⟩

theorem detectDfs_error_of_hasCycle (adj : AdjList) (hcyc : HasCycle adj) :
    ∃ n, detectCycleDfs adj = .error (some n) ∧ CycleThrough adj n := by
  rcases hd : detectCycleDfs adj with e | u
  · obtain ⟨n, rfl, hc⟩ := detectDfs_sound adj e hd
    exact ⟨n, rfl, hc⟩
  · cases u
    exact absurd hcyc (detectDfs_acyclic_of_ok adj hd)

/-- C2: `detect_cycle_dfs` — a depth-first traversal with a recursion-stack
set over the built adjacency list — returns normally exactly when the
directed dependency graph is acyclic; every raised exception names a node
lying on a cycle (the recursion-depth bound of the embedding is never
hit); a cyclic graph always raises such an exception; and in particular a
self-loop (a graph declaring itself as a dependency) is always reported. -/
theorem detect_cycle_dfs_correct (adj : AdjList) :
    (detectCycleDfs adj = .ok () ↔ ¬ HasCycle adj) ∧
    (∀ e, detectCycleDfs adj = .error e →
      ∃ n, e = some n ∧ CycleThrough adj n) ∧
    (HasCycle adj → ∃ n, detectCycleDfs adj = .error (some n) ∧
      CycleThrough adj n) ∧
    (∀ v, EdgeRel adj v v → ∃ n, detectCycleDfs adj = .error (some n) ∧
      CycleThrough adj n) := by
  refine ⟨⟨detectDfs_acyclic_of_ok adj, ?_⟩, detectDfs_sound adj,
    detectDfs_error_of_hasCycle adj, ?_⟩
  · intro hnc
    rcases hd : detectCycleDfs adj with e | u
    · obtain ⟨n, rfl, hc⟩ := detectDfs_sound adj e hd
      exact absurd ⟨n, hc⟩ hnc
    · cases u
      rfl
  · intro v hv
    exact detectDfs_error_of_hasCycle adj ⟨v, v, hv, .refl v⟩

instance : DecidableEq (Except (Option FPath) Unit) := fun a b =>
  match a, b with
  | .error e1, .error e2 => decidable_of_iff (e1 = e2) (by simp)
  | .ok u1, .ok u2 => isTrue (by cases u1; cases u2; rfl)
  | .error _, .ok _ => isFalse (by simp)
  | .ok _, .error _ => isFalse (by simp)

/-- A self-loop adjacency list for the C2 witness. -/
def adjSelfLoop : AdjList :=
  [(["a"], [(["a"], ⟨some ["a"], "", []⟩)])]

/-- An acyclic adjacency list for the C2 witness. -/
def adjChain : AdjList :=
  [(["a"], [(["b"], ⟨some ["b"], "", []⟩)]), (["b"], [])]

/-- Witness for C2 at concrete inputs: the self-loop is reported with a
node on the cycle, and the two-node chain is certified acyclic. -/
theorem detect_cycle_dfs_correct_witness :
    (∃ n, detectCycleDfs adjSelfLoop = .error (some n) ∧
      CycleThrough adjSelfLoop n) ∧
    ¬ HasCycle adjChain :=
  ⟨(detect_cycle_dfs_correct adjSelfLoop).2.2.2 ["a"] (by decide),
   (detect_cycle_dfs_correct adjChain).1.mp (by decide)⟩

/-! ## Claim C1: the acyclicity gate -/

/-- Concrete cyclic world for C1: `python` and `work` declare each other as
dependencies; `work` additionally syncs the `Python` namespace from
`python`, whose pages directory holds `Python.md`. -/
def w1 : World :=
  { fs := [(["python"], .dir), (["python", "logseq"], .dir),
           (["python", "pages"], .dir),
           (["python", "pages", "Python.md"], .file "hello" 1 false),
           (["work"], .dir), (["work", "logseq"], .dir),
           (["work", "pages"], .dir)],
    decls := [(["python"], .parsed (some [⟨some ["..", "work"], "", []⟩])),
              (["work"], .parsed (some [⟨some ["..", "python"], "",
                [⟨"Python", "Python", false⟩]⟩]))] }

/-- The dependency graph the resolver builds from `w1`: a two-node cycle. -/
def adjW1 : AdjList :=
  [(["python"], [(["work"], ⟨some ["..", "work"], "", []⟩)]),
   (["work"], [(["python"], ⟨some ["..", "python"], "",
     [⟨"Python", "Python", false⟩]⟩)])]

/-- C1 (counterexample): on the cyclic declaration set of `w1` the copy
script performs no cycle validation — it raises nothing (exit code 0) and
creates `work/pages/Python.md`, which did not exist before, so files in a
target directory are created even though the dependency graph has a
cycle. -/
theorem acyclicity_gate_counterexample :
    buildDependencyGraph w1.decls (findLogseqGraphs w1.fs []) = .ok adjW1 ∧
    HasCycle adjW1 ∧
    (main03 9 w1).2.2 = none ∧
    lookupFS (main03 9 w1).1 ["work", "pages", "Python.md"] =
      some (.file (pageHeader "python" "Python.md" ++ "hello") 9 false) ∧
    lookupFS w1.fs ["work", "pages", "Python.md"] = none :=
  ⟨rfl, ⟨["python"], ["work"], by decide, .head (by decide) (.refl _)⟩,
    by decide, by decide, rfl⟩

/-- C1 (amended): the acyclicity gate holds for the link-based script only:
whenever the resolver builds an adjacency list that contains a cycle, its
`main` exits with code 1 and the filesystem is returned exactly as it was —
cycle detection runs fully before any linking.  The copy-based script
performs no cycle validation at all (see the counterexample: it
materializes files and exits successfully on a cyclic declaration set). -/
theorem acyclicity_gate_link_only (w : World) (adj : AdjList)
    (hb : buildDependencyGraph w.decls (findLogseqGraphs w.fs []) = .ok adj)
    (hc : HasCycle adj) :
    main02 w = .exited 1 w.fs := by
  obtain ⟨n, hd, _⟩ := detectDfs_error_of_hasCycle adj hc
  cases hgs : findLogseqGraphs w.fs [] with
  | nil =>
    rw [hgs] at hb
    simp only [buildDependencyGraph] at hb
    cases hb
    obtain ⟨m, w', he, _⟩ := hc
    unfold EdgeRel neighborsOf at he
    simp [List.find?] at he
  | cons g gs =>
    rw [hgs] at hb
    simp [main02, hgs, hb, hd]

/-- Witness for C1's amended theorem at the concrete cyclic world. -/
theorem acyclicity_gate_link_only_witness :
    main02 w1 = .exited 1 w1.fs :=
  acyclicity_gate_link_only w1 adjW1 rfl
    ⟨["python"], ["work"], by decide, .head (by decide) (.refl _)⟩

end LogseqSync
